import Mathlib

set_option linter.unusedSectionVars false

/-!
Verification of the Branch-and-Bound TSP solver (`TSPBranchAndBound` in
`src/unnamed/part_000`).

The solver is shallowly embedded as pure state-passing code:

* JS numbers (used only through `+`, `min`, `<`, `≤`, `=` and the constant
  `Infinity`) are modelled as `WithTop F` for an arbitrary linearly ordered
  additive commutative monoid `F`; `⊤` plays the role of `Infinity`.  The
  repository's matrix builder (`AdjacencyMatrix`) produces integer matrices
  (`Math.round` of Euclidean distances), so `F := ℤ` is used for all concrete
  instances.
* JS `Map`s become association lists (`List.lookup`); the non-null assertion
  `get(...)!` becomes `Option.getD` with a default (never reached on
  well-formed mappings).
* `Array.prototype.sort` with the comparator `(a, b) => a.lowerBound -
  b.lowerBound` becomes the stable `List.mergeSort` on `lowerBound ≤`.
* `Date.now()` becomes an ambient `clock : Nat → Int` giving the value of the
  k-th call; every event append performs exactly one call.
* Mutable heap aliasing matters in one place: `prune` and `explore` events
  push a *reference* to the node object (lines 148, 165, 220, 228 of the
  source) while a `complete` event pushes a spread *copy* (line 185).  The
  single in-place mutation after creation is `…isPruned = true` (lines 164,
  227).  The state records the ids of nodes so mutated in
  `prunedMutatedIds`, and `stepSolutionAtEnd` computes what a logged event's
  solution object looks like once the solve has finished.
-/

namespace TSPBB

/-- Cost values: `F` extended with `⊤` (JS `Infinity`). -/
abbrev Cost (F : Type) := WithTop F

variable {F : Type} [LinearOrderedAddCommMonoid F]

/-- `this.matrix[i][j]` (out-of-range access never happens on well-formed
input; the default is `0`). -/
def matrixGet (m : List (List (Cost F))) (i j : Nat) : Cost F :=
  (m.getD i []).getD j 0

/-- The loop `for (let i = 0; i < path.length - 1; i++) cost +=
this.matrix[path[i]][path[i + 1]]` of `calculateLowerBound`. -/
def pathCost (m : List (List (Cost F))) : List Nat → Cost F
  | a :: b :: rest => matrixGet m a b + pathCost m (b :: rest)
  | _ => 0

/-- The inner selection loop of `calculateMSTCost`: scan `v = 0 … k-1`, keep
the first unvisited `v` whose key is strictly smaller than the current pick
(`u === -1 || key[v] < key[u]`). -/
def primSelect (visited : List Nat) (key : List (Cost F)) (k : Nat) : Option Nat :=
  (List.range k).foldl
    (fun u v =>
      if v ∈ visited then u
      else
        match u with
        | none => some v
        | some u0 => if key.getD v 0 < key.getD u0 0 then some v else u)
    none

/-- The key-update loop of `calculateMSTCost`: for every unvisited `v`, if
`matrix[nodes[u]][nodes[v]] < key[v]` then lower `key[v]` to that weight. -/
def primUpdate (m : List (List (Cost F))) (nodes : List Nat) (visited : List Nat)
    (key : List (Cost F)) (u : Nat) (k : Nat) : List (Cost F) :=
  (List.range k).foldl
    (fun key v =>
      if v ∈ visited then key
      else
        let weight := matrixGet m (nodes.getD u 0) (nodes.getD v 0)
        if weight < key.getD v 0 then key.set v weight else key)
    key

/-- `calculateMSTCost`: Prim's algorithm over the sub-matrix induced by
`nodes`, run for `nodes.length` rounds from position `0` (`key[0] = 0`). -/
def calculateMSTCost (m : List (List (Cost F))) (nodes : List Nat) : Cost F :=
  if nodes.length ≤ 1 then 0
  else
    let k := nodes.length
    let final :=
      (List.range k).foldl
        (fun st _count =>
          match primSelect st.1 st.2.1 k with
          | none => st
          | some u =>
            let visited := u :: st.1
            let mstCost := st.2.2 + st.2.1.getD u 0
            let key := primUpdate m nodes visited st.2.1 u k
            (visited, key, mstCost))
        (([] : List Nat), (List.replicate k (⊤ : Cost F)).set 0 0, (0 : Cost F))
    final.2.2

/-- `calculateLowerBound(path, visited)`: exact cost of the edges already on
the path, plus — for incomplete paths — the cheapest edge leaving the last
city (skipped when infinite), Prim's MST cost over the unvisited cities, and
the cheapest edge from an unvisited city back to `path[0]` (skipped when
infinite).  For complete paths, the exact closing edge is added instead. -/
def calculateLowerBound (m : List (List (Cost F))) (n : Nat)
    (path : List Nat) (visited : List Nat) : Cost F :=
  if path.length = 0 then 0
  else
    let cost := pathCost m path
    if path.length < n then
      let unvisited := (List.range n).filter (fun i => !(visited.contains i))
      if 0 < unvisited.length then
        let lastNode := path.getLastD 0
        let minFromLast := unvisited.foldl (fun acc node => min acc (matrixGet m lastNode node)) ⊤
        let cost1 := if minFromLast ≠ ⊤ then cost + minFromLast else cost
        let cost2 := if 1 < unvisited.length then cost1 + calculateMSTCost m unvisited else cost1
        let minToStart := unvisited.foldl (fun acc node => min acc (matrixGet m node (path.headD 0))) ⊤
        if minToStart ≠ ⊤ then cost2 + minToStart else cost2
      else cost
    else
      cost + matrixGet m (path.getLastD 0) (path.headD 0)

/-- A search node (`PartialSolution` in `types/tsp`). -/
structure PartialSolution (F : Type) where
  id : String
  path : List String
  /-- `new Set(pathIds)`; a JS `Set` is only ever queried for membership, so
  it is kept as the generating list. -/
  visited : List String
  cost : Cost F
  lowerBound : Cost F
  level : Nat
  isComplete : Bool
  isPruned : Bool
  parentId : Option String
deriving DecidableEq, Repr

/-- The `action` field of a `BranchingStep`. -/
inductive StepAction
  | explore
  | prune
  | complete
deriving DecidableEq, Repr

/-- A logged search event (`BranchingStep` in `types/tsp`).  The
human-readable `message` string is presentation-only and is not modelled. -/
structure BranchingStep (F : Type) where
  solution : PartialSolution F
  action : StepAction
  timestamp : Int
deriving DecidableEq, Repr

/-- The constructor arguments of `TSPBranchAndBound`. -/
structure Solver (F : Type) where
  matrix : List (List (Cost F))
  nodeMap : List (String × Nat)
  sourceNodeId : String

/-- `this.n = matrix.length`. -/
def Solver.n (s : Solver F) : Nat := s.matrix.length

/-- `this.reverseNodeMap`, built by inserting `(index, nodeId)` for each
entry of `nodeMap` in iteration order. -/
def Solver.reverseNodeMap (s : Solver F) : List (Nat × String) :=
  s.nodeMap.map (fun p => (p.2, p.1))

/-- `this.reverseNodeMap.get(i)!`. -/
def reverseGet (rmap : List (Nat × String)) (i : Nat) : String :=
  (List.lookup i rmap).getD ""

/-- `this.nodeMap.get(nodeId)!`. -/
def nodeGet (nmap : List (String × Nat)) (nodeId : String) : Nat :=
  (List.lookup nodeId nmap).getD 0

/-- `createPartialSolution(path, cost, level, parentId)`; also returns the
incremented `solutionCounter`. -/
def createPartialSolution (s : Solver F) (counter : Nat) (path : List Nat)
    (cost : Cost F) (level : Nat) (parentId : Option String) :
    PartialSolution F × Nat :=
  let visited := path
  let lowerBound := calculateLowerBound s.matrix s.n path visited
  let pathIds := path.map (reverseGet s.reverseNodeMap)
  ({ id := "sol-" ++ toString counter
     path := pathIds
     visited := pathIds
     cost := cost
     lowerBound := lowerBound
     level := level
     isComplete := path.length == s.n
     isPruned := false
     parentId := parentId }, counter + 1)

/-- The mutable solver/loop state during `solve`: the frontier `queue`, the
event log `steps`, the incumbent (`bestCost`, `bestPath`), the id counter,
`explored.length`, and the ids of nodes whose `isPruned` field has been
mutated in place (JS heap aliasing, see the file header). -/
structure SolveState (F : Type) where
  queue : List (PartialSolution F)
  steps : List (BranchingStep F)
  bestCost : Cost F
  bestPath : List String
  solutionCounter : Nat
  exploredCount : Nat
  prunedMutatedIds : List String
deriving DecidableEq, Repr

/-- One iteration of the child-generation loop body (`for (let nextNodeIndex
= 0; …)`) of `solve`. -/
def expandChild (s : Solver F) (clock : Nat → Int) (current : PartialSolution F)
    (currentPath : List Nat) (st : SolveState F) (nextNodeIndex : Nat) :
    SolveState F :=
  let nextNodeId := reverseGet s.reverseNodeMap nextNodeIndex
  if nextNodeId ∈ current.visited then st
  else
    let lastNodeIndex := nodeGet s.nodeMap (current.path.getLastD "")
    let edgeCost := matrixGet s.matrix lastNodeIndex nextNodeIndex
    let newCost := current.cost + edgeCost
    let newPath := currentPath ++ [nextNodeIndex]
    let made := createPartialSolution s st.solutionCounter newPath newCost
      (current.level + 1) (some current.id)
    let childSolution := made.1
    if childSolution.lowerBound < st.bestCost then
      { st with
        queue := st.queue ++ [childSolution]
        steps := st.steps ++
          [{ solution := childSolution, action := .explore, timestamp := clock st.steps.length }]
        solutionCounter := made.2 }
    else
      { st with
        steps := st.steps ++
          [{ solution := { childSolution with isPruned := true }, action := .prune,
             timestamp := clock st.steps.length }]
        solutionCounter := made.2
        prunedMutatedIds := st.prunedMutatedIds ++ [childSolution.id] }

/-- The full child-generation loop of `solve`. -/
def expandChildren (s : Solver F) (clock : Nat → Int) (current : PartialSolution F)
    (currentPath : List Nat) (st : SolveState F) : SolveState F :=
  (List.range s.n).foldl (expandChild s clock current currentPath) st

/-- One iteration of the `while (queue.length > 0)` loop of `solve`: re-sort
the frontier by `lowerBound`, shift the head, count it as explored, then
prune / compare a complete tour / expand.  V8's `Array.prototype.sort` is
stable, and a stable sort's output is uniquely determined by the comparator
and the input order, so it is modelled by the stable `List.insertionSort`
(the comparator `a.lowerBound - b.lowerBound` orders by `≤` on costs;
`Infinity - Infinity = NaN` is treated as a tie, i.e. `⊤ ≤ ⊤`). -/
def solveStep (s : Solver F) (clock : Nat → Int) (st : SolveState F) : SolveState F :=
  match st.queue.insertionSort (fun a b => a.lowerBound ≤ b.lowerBound) with
  | [] => st
  | current :: rest =>
    let st1 := { st with queue := rest, exploredCount := st.exploredCount + 1 }
    if st1.bestCost ≤ current.lowerBound then
      { st1 with
        steps := st1.steps ++
          [{ solution := { current with isPruned := true }, action := .prune,
             timestamp := clock st1.steps.length }]
        prunedMutatedIds := st1.prunedMutatedIds ++ [current.id] }
    else
      let currentPath := current.path.map (nodeGet s.nodeMap)
      if current.level = s.n then
        let returnCost := matrixGet s.matrix (currentPath.getLastD 0) (currentPath.headD 0)
        let totalCost := current.cost + returnCost
        if totalCost < st1.bestCost then
          let newBestPath := current.path ++ [current.path.headD ""]
          { st1 with
            bestCost := totalCost
            bestPath := newBestPath
            steps := st1.steps ++
              [{ solution := { current with path := newBestPath, cost := totalCost, isComplete := true },
                 action := .complete, timestamp := clock st1.steps.length }] }
        else st1
      else expandChildren s clock current currentPath st1

/-- The `while` loop of `solve`, with an explicit fuel bound (`none` when the
fuel runs out; `solveLoop_le_fuel` below shows the chosen fuel always
suffices). -/
def solveLoop (s : Solver F) (clock : Nat → Int) : Nat → SolveState F → Option (SolveState F)
  | 0, st => if st.queue.isEmpty then some st else none
  | fuel + 1, st => if st.queue.isEmpty then some st else solveLoop s clock fuel (solveStep s clock st)

/-- Fuel that provably dominates the number of loop iterations. -/
def solveFuel (n : Nat) : Nat := (n + 2) ^ (n + 2)

/-- The state after `this.steps = []; this.bestCost = Infinity; this.bestPath
= []; this.solutionCounter = 0`, creating the root node and emitting its
`explore` event. -/
def initialState (s : Solver F) (clock : Nat → Int) (startNodeIndex : Nat) : SolveState F :=
  let made := createPartialSolution s 0 [startNodeIndex] 0 1 none
  { queue := [made.1]
    steps := [{ solution := made.1, action := .explore, timestamp := clock 0 }]
    bestCost := ⊤
    bestPath := []
    solutionCounter := made.2
    exploredCount := 0
    prunedMutatedIds := [] }

/-- `solve`, stopped after the main loop: either the thrown configuration
error, or the final solver state. -/
def solveState (s : Solver F) (clock : Nat → Int) : Except String (SolveState F) :=
  match List.lookup s.sourceNodeId s.nodeMap with
  | none => .error ("Source node " ++ s.sourceNodeId ++ " not found")
  | some startNodeIndex =>
    match solveLoop s clock (solveFuel s.n) (initialState s clock startNodeIndex) with
    | some final => .ok final
    | none => .error "out of fuel"

/-- The record returned by `solve`. -/
structure SolveResult (F : Type) where
  bestSolution : Option (PartialSolution F)
  steps : List (BranchingStep F)
  exploredCount : Nat
deriving DecidableEq, Repr

/-- The final `return { bestSolution, steps, exploredCount }` of `solve`. -/
def finishSolve (s : Solver F) (final : SolveState F) : SolveResult F :=
  { bestSolution :=
      if 0 < final.bestPath.length then
        some
          { id := "final-solution"
            path := final.bestPath
            visited := final.bestPath.dropLast
            cost := final.bestCost
            lowerBound := final.bestCost
            level := s.n
            isComplete := true
            isPruned := false
            parentId := none }
      else none
    steps := final.steps
    exploredCount := final.exploredCount }

/-- `solve()`: configuration-error check, search loop, final result. -/
def solve (s : Solver F) (clock : Nat → Int) : Except String (SolveResult F) :=
  (solveState s clock).map (finishSolve s)

/-- What the solution object carried by a logged event looks like *after* the
solve has finished: `prune`/`explore` events hold a reference to the node
object (source lines 148, 165, 220, 228), so if that node's `isPruned` field
was later mutated in place the event reflects it; `complete` events hold a
spread copy (line 185) and never change. -/
def stepSolutionAtEnd (mutated : List String) (st : BranchingStep F) : PartialSolution F :=
  if st.action ≠ StepAction.complete ∧ st.solution.id ∈ mutated then
    { st.solution with isPruned := true }
  else st.solution

/-- The timestamp-free content of a logged event, for the determinism claim. -/
def stepData (st : BranchingStep F) : PartialSolution F × StepAction :=
  (st.solution, st.action)

/-- A `SolveResult` with the timestamps erased. -/
def resultData (r : SolveResult F) :
    Option (PartialSolution F) × List (PartialSolution F × StepAction) × Nat :=
  (r.bestSolution, r.steps.map stepData, r.exploredCount)

/-! ### Specification-side definitions (brute force, written from the spec) -/

/-- Cost of the round trip along `p` (its consecutive edges plus the closing
edge from its last city back to its first). -/
def tourCost (m : List (List (Cost F))) (p : List Nat) : Cost F :=
  pathCost m p + matrixGet m (p.getLastD 0) (p.headD 0)

/-- Modelled from the spec: all orderings of the `n` cities that fix `s0` as
the starting city — the search space of the brute-force reference. -/
def sourceTours (n s0 : Nat) : List (List Nat) :=
  (List.range n).permutations'.filter (fun p => p.headD 0 == s0)

/-- Modelled from the spec: the exhaustive brute-force optimum — the minimum
round-trip cost over all permutations fixing the source. -/
def bruteForceMinCost (m : List (List (Cost F))) (n s0 : Nat) : Cost F :=
  ((sourceTours n s0).map (tourCost m)).foldl min ⊤

/-- The cities not on `path`, in index order. -/
def unvisitedCities (n : Nat) (path : List Nat) : List Nat :=
  (List.range n).filter (fun i => !(path.contains i))

/-- Modelled from the spec: the cost of completing the partial path `path`
by visiting the cities of `rest` in order and returning to `path`'s head. -/
def completionCost (m : List (List (Cost F))) (path rest : List Nat) : Cost F :=
  tourCost m (path ++ rest)

/-- Modelled from the spec: the true minimum cost of completing `path` into a
full round trip, by brute force over all orderings of the unvisited cities. -/
def minCompletionCost (m : List (List (Cost F))) (n : Nat) (path : List Nat) : Cost F :=
  (((unvisitedCities n path).permutations').map (completionCost m path)).foldl min ⊤

/-! ### Termination: the chosen fuel always dominates the loop -/

/-- Levels of frontier nodes stay in `[1, max n 1]`. -/
def levelsOK (n : Nat) (q : List (PartialSolution F)) : Prop :=
  ∀ sol ∈ q, 1 ≤ sol.level ∧ sol.level ≤ max n 1

/-- Decreasing measure for the main loop. -/
def queueMeasure (n : Nat) (q : List (PartialSolution F)) : Nat :=
  (q.map (fun sol => (n + 1) ^ (n + 1 - sol.level))).sum

theorem queueMeasure_perm {n : Nat} {q1 q2 : List (PartialSolution F)} (h : q1.Perm q2) :
    queueMeasure n q1 = queueMeasure n q2 :=
  (h.map _).sum_eq

theorem queueMeasure_append {n : Nat} (q1 q2 : List (PartialSolution F)) :
    queueMeasure n (q1 ++ q2) = queueMeasure n q1 + queueMeasure n q2 := by
  simp [queueMeasure]

theorem queueMeasure_cons {n : Nat} (sol : PartialSolution F) (q : List (PartialSolution F)) :
    queueMeasure n (sol :: q) = (n + 1) ^ (n + 1 - sol.level) + queueMeasure n q := by
  simp [queueMeasure]

theorem expandChild_queue (s : Solver F) (c : Nat → Int) (cur : PartialSolution F)
    (cp : List Nat) (st : SolveState F) (i : Nat) :
    (expandChild s c cur cp st i).queue = st.queue ∨
      ∃ ch : PartialSolution F,
        (expandChild s c cur cp st i).queue = st.queue ++ [ch] ∧ ch.level = cur.level + 1 := by
  dsimp only [expandChild]
  split
  · exact Or.inl rfl
  · split
    · exact Or.inr ⟨_, rfl, rfl⟩
    · exact Or.inl rfl

theorem expandChild_bestCost (s : Solver F) (c : Nat → Int) (cur : PartialSolution F)
    (cp : List Nat) (st : SolveState F) (i : Nat) :
    (expandChild s c cur cp st i).bestCost = st.bestCost := by
  dsimp only [expandChild]
  split
  · rfl
  · split <;> rfl

theorem foldl_expandChild_queue (s : Solver F) (c : Nat → Int) (cur : PartialSolution F)
    (cp : List Nat) :
    ∀ (L : List Nat) (st : SolveState F),
      ∃ tail : List (PartialSolution F),
        (L.foldl (expandChild s c cur cp) st).queue = st.queue ++ tail ∧
          tail.length ≤ L.length ∧ ∀ ch ∈ tail, ch.level = cur.level + 1 := by
  intro L
  induction L with
  | nil => exact fun st => ⟨[], by simp⟩
  | cons i L ih =>
    intro st
    obtain ⟨tail, htail, hlen, hlev⟩ := ih (expandChild s c cur cp st i)
    rcases expandChild_queue s c cur cp st i with h1 | ⟨ch, h1, hch⟩
    · exact ⟨tail, by simpa [h1] using htail, le_trans hlen (by simp), hlev⟩
    · refine ⟨ch :: tail, ?_, by simpa using Nat.succ_le_succ hlen, ?_⟩
      · simpa [h1] using htail
      · intro x hx
        rcases List.mem_cons.mp hx with rfl | hx
        · exact hch
        · exact hlev x hx

theorem expandChildren_queue (s : Solver F) (c : Nat → Int) (cur : PartialSolution F)
    (cp : List Nat) (st : SolveState F) :
    ∃ tail : List (PartialSolution F),
      (expandChildren s c cur cp st).queue = st.queue ++ tail ∧
        tail.length ≤ s.n ∧ ∀ ch ∈ tail, ch.level = cur.level + 1 := by
  obtain ⟨tail, h1, h2, h3⟩ := foldl_expandChild_queue s c cur cp (List.range s.n) st
  exact ⟨tail, h1, by simpa using h2, h3⟩

theorem one_le_pow_term (n e : Nat) : 1 ≤ (n + 1) ^ e :=
  Nat.one_le_pow _ _ (Nat.succ_pos n)

theorem children_measure_lt (n lv : Nat) (tail : List (PartialSolution F))
    (hlen : tail.length ≤ n) (hlev : ∀ ch ∈ tail, ch.level = lv + 1)
    (hlv1 : 1 ≤ lv) (hlvmax : lv ≤ max n 1) (hne : lv ≠ n) :
    queueMeasure n tail < (n + 1) ^ (n + 1 - lv) := by
  have hsum : queueMeasure n tail = tail.length * (n + 1) ^ (n + 1 - (lv + 1)) := by
    induction tail with
    | nil => simp [queueMeasure]
    | cons ch t iht =>
      rw [queueMeasure_cons, iht (le_trans (by simp) hlen) (fun x hx => hlev x (List.mem_cons_of_mem _ hx))]
      rw [hlev ch (List.mem_cons_self _ _), List.length_cons, Nat.succ_mul]
      ring
  rw [hsum]
  rcases Nat.eq_zero_or_pos n with rfl | hn
  · have : tail.length = 0 := Nat.le_zero.mp hlen
    simp [this, one_le_pow_term]
  · have hlvn : lv < n := by
      have : lv ≤ n := by
        have := hlvmax
        omega
      omega
    have he : n + 1 - lv = (n + 1 - (lv + 1)) + 1 := by omega
    calc tail.length * (n + 1) ^ (n + 1 - (lv + 1))
        ≤ n * (n + 1) ^ (n + 1 - (lv + 1)) :=
          Nat.mul_le_mul_right _ hlen
      _ < (n + 1) * (n + 1) ^ (n + 1 - (lv + 1)) :=
          (Nat.mul_lt_mul_right (one_le_pow_term _ _)).mpr (Nat.lt_succ_self n)
      _ = (n + 1) ^ (n + 1 - lv) := by rw [he, pow_succ]; ring

theorem solveStep_measure (s : Solver F) (c : Nat → Int) (st : SolveState F)
    (hlev : levelsOK s.n st.queue) (hne : st.queue ≠ []) :
    queueMeasure s.n (solveStep s c st).queue < queueMeasure s.n st.queue ∧
      levelsOK s.n (solveStep s c st).queue := by
  dsimp only [solveStep]
  have hperm : (st.queue.insertionSort (fun a b => a.lowerBound ≤ b.lowerBound)).Perm st.queue :=
    List.perm_insertionSort _ _
  have hmeq : queueMeasure s.n (st.queue.insertionSort (fun a b => a.lowerBound ≤ b.lowerBound)) =
      queueMeasure s.n st.queue := queueMeasure_perm hperm
  have hlevs : levelsOK s.n (st.queue.insertionSort (fun a b => a.lowerBound ≤ b.lowerBound)) :=
    fun sol hsol => hlev sol (hperm.mem_iff.mp hsol)
  split
  · next heq =>
    exfalso
    have := hperm.length_eq
    rw [heq] at this
    exact hne (List.length_eq_zero.mp this.symm)
  · next current rest heq =>
    have hcur : 1 ≤ current.level ∧ current.level ≤ max s.n 1 := by
      have : current ∈ st.queue.insertionSort (fun a b => a.lowerBound ≤ b.lowerBound) := by
        rw [heq]; exact List.mem_cons_self _ _
      exact hlevs current this
    have hrest : levelsOK s.n rest := by
      intro sol hsol
      have : sol ∈ st.queue.insertionSort (fun a b => a.lowerBound ≤ b.lowerBound) := by
        rw [heq]; exact List.mem_cons_of_mem _ hsol
      exact hlevs sol this
    have hmcons : queueMeasure s.n st.queue =
        (s.n + 1) ^ (s.n + 1 - current.level) + queueMeasure s.n rest := by
      rw [← hmeq, heq, queueMeasure_cons]
    have hrest_lt : queueMeasure s.n rest < queueMeasure s.n st.queue := by
      rw [hmcons]
      have := one_le_pow_term s.n (s.n + 1 - current.level)
      omega
    split
    · exact ⟨hrest_lt, hrest⟩
    · split
      · split
        · exact ⟨hrest_lt, hrest⟩
        · exact ⟨hrest_lt, hrest⟩
      · next hlevne =>
        obtain ⟨tail, h1, h2, h3⟩ := expandChildren_queue s c current
          (current.path.map (nodeGet s.nodeMap)) _
        constructor
        · rw [h1]
          simp only [queueMeasure_append]
          rw [hmcons]
          have := children_measure_lt s.n current.level tail h2 h3 hcur.1 hcur.2 hlevne
          omega
        · intro sol hsol
          rw [h1] at hsol
          rcases List.mem_append.mp hsol with hsol | hsol
          · exact hrest sol hsol
          · have := h3 sol hsol
            rcases Nat.eq_zero_or_pos s.n with hzero | hpos
            · exfalso
              have : tail.length ≤ 0 := hzero ▸ h2
              have : tail = [] := List.length_eq_zero.mp (Nat.le_zero.mp this)
              simp [this] at hsol
            · have hlt : current.level < s.n := by
                have := hcur.2
                have := hcur.1
                omega
              constructor
              · omega
              · omega

theorem solveLoop_isSome (s : Solver F) (c : Nat → Int) :
    ∀ (fuel : Nat) (st : SolveState F), queueMeasure s.n st.queue < fuel →
      levelsOK s.n st.queue → (solveLoop s c fuel st).isSome := by
  intro fuel
  induction fuel with
  | zero => intro st h _; omega
  | succ fuel ih =>
    intro st hm hlev
    unfold solveLoop
    by_cases hq : st.queue.isEmpty
    · simp [hq]
    · simp only [hq, if_false]
      have hne : st.queue ≠ [] := by
        intro h
        rw [h] at hq
        simp at hq
      obtain ⟨hlt, hlev2⟩ := solveStep_measure s c st hlev hne
      exact ih (solveStep s c st) (by omega) hlev2

theorem initial_measure_lt (s : Solver F) (c : Nat → Int) (i : Nat) :
    queueMeasure s.n (initialState s c i).queue < solveFuel s.n := by
  have h1 : queueMeasure s.n (initialState s c i).queue = (s.n + 1) ^ (s.n + 1 - 1) := by
    simp [initialState, queueMeasure, createPartialSolution]
  rw [h1]
  unfold solveFuel
  calc (s.n + 1) ^ (s.n + 1 - 1) ≤ (s.n + 2) ^ (s.n + 1 - 1) :=
        Nat.pow_le_pow_left (by omega) _
    _ < (s.n + 2) ^ (s.n + 2) := Nat.pow_lt_pow_right (by omega) (by omega)

theorem initial_levelsOK (s : Solver F) (c : Nat → Int) (i : Nat) :
    levelsOK s.n (initialState s c i).queue := by
  intro sol hsol
  simp only [initialState, List.mem_singleton] at hsol
  subst hsol
  simp [createPartialSolution]

theorem solveLoop_final_queue (s : Solver F) (c : Nat → Int) :
    ∀ (fuel : Nat) (st final : SolveState F),
      solveLoop s c fuel st = some final → final.queue = [] := by
  intro fuel
  induction fuel with
  | zero =>
    intro st final h
    unfold solveLoop at h
    by_cases hq : st.queue.isEmpty
    · simp [hq] at h
      subst h
      exact List.isEmpty_iff.mp hq
    · simp [hq] at h
  | succ fuel ih =>
    intro st final h
    unfold solveLoop at h
    by_cases hq : st.queue.isEmpty
    · simp [hq] at h
      subst h
      exact List.isEmpty_iff.mp hq
    · simp only [hq, if_false] at h
      exact ih _ final h

theorem solveLoop_preserve (s : Solver F) (c : Nat → Int) {P : SolveState F → Prop}
    (hstep : ∀ st, P st → P (solveStep s c st)) :
    ∀ (fuel : Nat) (st final : SolveState F),
      solveLoop s c fuel st = some final → P st → P final := by
  intro fuel
  induction fuel with
  | zero =>
    intro st final h hP
    unfold solveLoop at h
    by_cases hq : st.queue.isEmpty
    · simp [hq] at h; subst h; exact hP
    · simp [hq] at h
  | succ fuel ih =>
    intro st final h hP
    unfold solveLoop at h
    by_cases hq : st.queue.isEmpty
    · simp [hq] at h; subst h; exact hP
    · simp only [hq, if_false] at h
      exact ih _ final h (hstep st hP)

/-- With the source present in the mapping, `solve` always returns normally:
the fuel bound is never hit. -/
theorem solveState_ok_of_lookup (s : Solver F) (c : Nat → Int) (i : Nat)
    (h : List.lookup s.sourceNodeId s.nodeMap = some i) :
    ∃ final, solveState s c = .ok final ∧
      solveLoop s c (solveFuel s.n) (initialState s c i) = some final := by
  have hsome := solveLoop_isSome s c (solveFuel s.n) (initialState s c i)
    (initial_measure_lt s c i) (initial_levelsOK s c i)
  obtain ⟨final, hfinal⟩ := Option.isSome_iff_exists.mp hsome
  refine ⟨final, ?_, hfinal⟩
  unfold solveState
  rw [h]
  dsimp only
  rw [hfinal]

/-! ### Log invariants: explored count, monotone completes, levels, pruning -/

/-- Number of `explore` events in a log. -/
def exploreEventCount (steps : List (BranchingStep F)) : Nat :=
  (steps.filter (fun e => decide (e.action = StepAction.explore))).length

/-- Invariant behind claim C10: dequeues so far plus the frontier size equal
the number of `explore` events logged so far. -/
def exploreBalance (st : SolveState F) : Prop :=
  st.exploredCount + st.queue.length = exploreEventCount st.steps

theorem expandChild_exploreBalance (s : Solver F) (c : Nat → Int)
    (cur : PartialSolution F) (cp : List Nat) (st : SolveState F) (i : Nat)
    (hP : exploreBalance st) : exploreBalance (expandChild s c cur cp st i) := by
  dsimp only [expandChild]
  split
  · exact hP
  · split
    · unfold exploreBalance exploreEventCount at hP ⊢
      simp only [List.filter_append, List.length_append, List.length_append]
      simp [hP]
      omega
    · unfold exploreBalance exploreEventCount at hP ⊢
      simp only [List.filter_append, List.length_append]
      simp [hP]

theorem foldl_expandChild_exploreBalance (s : Solver F) (c : Nat → Int)
    (cur : PartialSolution F) (cp : List Nat) :
    ∀ (L : List Nat) (st : SolveState F), exploreBalance st →
      exploreBalance (L.foldl (expandChild s c cur cp) st) := by
  intro L
  induction L with
  | nil => exact fun st h => h
  | cons i L ih => exact fun st h => ih _ (expandChild_exploreBalance s c cur cp st i h)

theorem solveStep_exploreBalance (s : Solver F) (c : Nat → Int) (st : SolveState F)
    (hP : exploreBalance st) : exploreBalance (solveStep s c st) := by
  dsimp only [solveStep]
  split
  · exact hP
  · next current rest heq =>
    have hlen : st.queue.length = rest.length + 1 := by
      have := (List.perm_insertionSort (fun a b : PartialSolution F => a.lowerBound ≤ b.lowerBound) st.queue).length_eq
      rw [heq] at this
      simpa using this.symm
    have hP1 : exploreBalance
        { st with queue := rest, exploredCount := st.exploredCount + 1 } := by
      unfold exploreBalance at hP ⊢
      simp only at *
      omega
    split
    · unfold exploreBalance exploreEventCount at hP1 ⊢
      simp only [List.filter_append] at *
      simp at *
      omega
    · split
      · split
        · unfold exploreBalance exploreEventCount at hP1 ⊢
          simp only [List.filter_append] at *
          simp at *
          omega
        · exact hP1
      · exact foldl_expandChild_exploreBalance s c current _ _ _ hP1

theorem solveState_ok_inversion (s : Solver F) (c : Nat → Int) (final : SolveState F)
    (h : solveState s c = .ok final) :
    ∃ i, List.lookup s.sourceNodeId s.nodeMap = some i ∧
      solveLoop s c (solveFuel s.n) (initialState s c i) = some final := by
  unfold solveState at h
  rcases hlk : List.lookup s.sourceNodeId s.nodeMap with _ | i
  · rw [hlk] at h
    simp at h
  · rw [hlk] at h
    dsimp only at h
    rcases hloop : solveLoop s c (solveFuel s.n) (initialState s c i) with _ | final2
    · rw [hloop] at h
      simp at h
    · rw [hloop] at h
      simp only [Except.ok.injEq] at h
      exact ⟨i, rfl, by rw [hloop, h]⟩

theorem solve_ok_inversion (s : Solver F) (c : Nat → Int) (r : SolveResult F)
    (h : solve s c = .ok r) :
    ∃ i final, List.lookup s.sourceNodeId s.nodeMap = some i ∧
      solveLoop s c (solveFuel s.n) (initialState s c i) = some final ∧
      r = finishSolve s final := by
  unfold solve at h
  rcases hss : solveState s c with e | final
  · rw [hss] at h
    simp [Except.map] at h
  · rw [hss] at h
    simp only [Except.map, Except.ok.injEq] at h
    obtain ⟨i, h1, h2⟩ := solveState_ok_inversion s c final hss
    exact ⟨i, final, h1, h2, h.symm⟩

/-- The `complete` events logged so far carry strictly decreasing costs, and
the incumbent is at most each of them. -/
def completesDecreasing (st : SolveState F) : Prop :=
  (st.steps.filter (fun e => decide (e.action = StepAction.complete))).Pairwise
    (fun a b => b.solution.cost < a.solution.cost) ∧
  ∀ e ∈ st.steps.filter (fun e => decide (e.action = StepAction.complete)),
    st.bestCost ≤ e.solution.cost

theorem expandChild_completesDecreasing (s : Solver F) (c : Nat → Int)
    (cur : PartialSolution F) (cp : List Nat) (st : SolveState F) (i : Nat)
    (hP : completesDecreasing st) : completesDecreasing (expandChild s c cur cp st i) := by
  dsimp only [expandChild]
  split
  · exact hP
  · split
    · unfold completesDecreasing at hP ⊢
      simpa using hP
    · unfold completesDecreasing at hP ⊢
      simpa using hP

theorem foldl_expandChild_completesDecreasing (s : Solver F) (c : Nat → Int)
    (cur : PartialSolution F) (cp : List Nat) :
    ∀ (L : List Nat) (st : SolveState F), completesDecreasing st →
      completesDecreasing (L.foldl (expandChild s c cur cp) st) := by
  intro L
  induction L with
  | nil => exact fun st h => h
  | cons i L ih => exact fun st h => ih _ (expandChild_completesDecreasing s c cur cp st i h)

theorem solveStep_completesDecreasing (s : Solver F) (c : Nat → Int) (st : SolveState F)
    (hP : completesDecreasing st) : completesDecreasing (solveStep s c st) := by
  dsimp only [solveStep]
  split
  · exact hP
  · next current rest heq =>
    have hP1 : completesDecreasing
        { st with queue := rest, exploredCount := st.exploredCount + 1 } := hP
    split
    · unfold completesDecreasing at hP1 ⊢
      simpa using hP1
    · split
      · split
        · next himp =>
          obtain ⟨hpair, hle⟩ := hP1
          unfold completesDecreasing
          constructor
          · simp only [List.filter_append]
            rw [List.pairwise_append]
            refine ⟨hpair, by simp, ?_⟩
            intro a ha b hb
            rw [List.mem_filter, List.mem_singleton] at hb
            rcases hb with ⟨rfl, -⟩
            exact lt_of_lt_of_le himp (hle a ha)
          · intro e he
            simp only [List.filter_append, List.mem_append] at he
            rcases he with he | he
            · exact le_of_lt (lt_of_lt_of_le himp (hle e he))
            · rw [List.mem_filter, List.mem_singleton] at he
              rcases he with ⟨rfl, -⟩
              exact le_rfl
        · exact hP1
      · exact foldl_expandChild_completesDecreasing s c current _ _ _ hP1

/-- Levels of all frontier nodes and all logged snapshots match their path
lengths; a `complete` snapshot's path additionally carries the closing edge. -/
def levelsMatch (st : SolveState F) : Prop :=
  (∀ sol ∈ st.queue, sol.level = sol.path.length) ∧
  ∀ e ∈ st.steps,
    (e.action = StepAction.complete → e.solution.path.length = e.solution.level + 1) ∧
    (e.action ≠ StepAction.complete → e.solution.level = e.solution.path.length)

theorem expandChild_levelsMatch (s : Solver F) (c : Nat → Int)
    (cur : PartialSolution F) (cp : List Nat) (st : SolveState F) (i : Nat)
    (hcur : cur.level = cp.length)
    (hP : levelsMatch st) : levelsMatch (expandChild s c cur cp st i) := by
  obtain ⟨hq, hs⟩ := hP
  have hchild : ∀ made : PartialSolution F × Nat,
      made = createPartialSolution s st.solutionCounter (cp ++ [i]) (cur.cost + matrixGet s.matrix (nodeGet s.nodeMap (cur.path.getLastD "")) i) (cur.level + 1) (some cur.id) →
      made.1.level = made.1.path.length := by
    intro made hmade
    rw [hmade]
    simp [createPartialSolution, hcur]
  dsimp only [expandChild]
  split
  · exact ⟨hq, hs⟩
  · split
    · constructor
      · intro sol hsol
        simp only [List.mem_append, List.mem_singleton] at hsol
        rcases hsol with hsol | rfl
        · exact hq sol hsol
        · exact hchild _ rfl
      · intro e he
        simp only [List.mem_append, List.mem_singleton] at he
        rcases he with he | rfl
        · exact hs e he
        · refine ⟨by simp, fun _ => ?_⟩
          exact hchild _ rfl
    · constructor
      · exact hq
      · intro e he
        simp only [List.mem_append, List.mem_singleton] at he
        rcases he with he | rfl
        · exact hs e he
        · refine ⟨by simp, fun _ => ?_⟩
          simpa using hchild _ rfl

theorem foldl_expandChild_levelsMatch (s : Solver F) (c : Nat → Int)
    (cur : PartialSolution F) (cp : List Nat) (hcur : cur.level = cp.length) :
    ∀ (L : List Nat) (st : SolveState F), levelsMatch st →
      levelsMatch (L.foldl (expandChild s c cur cp) st) := by
  intro L
  induction L with
  | nil => exact fun st h => h
  | cons i L ih => exact fun st h => ih _ (expandChild_levelsMatch s c cur cp st i hcur h)

theorem solveStep_levelsMatch (s : Solver F) (c : Nat → Int) (st : SolveState F)
    (hP : levelsMatch st) : levelsMatch (solveStep s c st) := by
  obtain ⟨hq, hs⟩ := hP
  dsimp only [solveStep]
  split
  · exact ⟨hq, hs⟩
  · next current rest heq =>
    have hperm : (st.queue.insertionSort (fun a b => a.lowerBound ≤ b.lowerBound)).Perm st.queue :=
      List.perm_insertionSort _ _
    have hmem : ∀ sol ∈ current :: rest, sol.level = sol.path.length := by
      intro sol hsol
      exact hq sol (hperm.mem_iff.mp (heq ▸ hsol))
    have hcur := hmem current (List.mem_cons_self _ _)
    have hrest : ∀ sol ∈ rest, sol.level = sol.path.length :=
      fun sol hsol => hmem sol (List.mem_cons_of_mem _ hsol)
    split
    · refine ⟨hrest, fun e he => ?_⟩
      simp only [List.mem_append, List.mem_singleton] at he
      rcases he with he | rfl
      · exact hs e he
      · exact ⟨by simp, fun _ => hcur⟩
    · split
      · split
        · refine ⟨hrest, fun e he => ?_⟩
          simp only [List.mem_append, List.mem_singleton] at he
          rcases he with he | rfl
          · exact hs e he
          · refine ⟨fun _ => ?_, by simp⟩
            simp [hcur]
        · exact ⟨hrest, hs⟩
      · refine foldl_expandChild_levelsMatch s c current _ ?_ _ _ ⟨hrest, hs⟩
        simpa using hcur

/-- `explore` events always log an un-pruned snapshot and `prune` events a
pruned one. -/
def prunedFlags (st : SolveState F) : Prop :=
  ∀ e ∈ st.steps,
    (e.action = StepAction.explore → e.solution.isPruned = false) ∧
    (e.action = StepAction.prune → e.solution.isPruned = true)

theorem expandChild_prunedFlags (s : Solver F) (c : Nat → Int)
    (cur : PartialSolution F) (cp : List Nat) (st : SolveState F) (i : Nat)
    (hP : prunedFlags st) : prunedFlags (expandChild s c cur cp st i) := by
  dsimp only [expandChild]
  split
  · exact hP
  · split
    · intro e he
      simp only [List.mem_append, List.mem_singleton] at he
      rcases he with he | rfl
      · exact hP e he
      · exact ⟨fun _ => by simp [createPartialSolution], by simp⟩
    · intro e he
      simp only [List.mem_append, List.mem_singleton] at he
      rcases he with he | rfl
      · exact hP e he
      · exact ⟨by simp, fun _ => rfl⟩

theorem foldl_expandChild_prunedFlags (s : Solver F) (c : Nat → Int)
    (cur : PartialSolution F) (cp : List Nat) :
    ∀ (L : List Nat) (st : SolveState F), prunedFlags st →
      prunedFlags (L.foldl (expandChild s c cur cp) st) := by
  intro L
  induction L with
  | nil => exact fun st h => h
  | cons i L ih => exact fun st h => ih _ (expandChild_prunedFlags s c cur cp st i h)

theorem solveStep_prunedFlags (s : Solver F) (c : Nat → Int) (st : SolveState F)
    (hP : prunedFlags st) : prunedFlags (solveStep s c st) := by
  dsimp only [solveStep]
  split
  · exact hP
  · next current rest heq =>
    split
    · intro e he
      simp only [List.mem_append, List.mem_singleton] at he
      rcases he with he | rfl
      · exact hP e he
      · exact ⟨by simp, fun _ => rfl⟩
    · split
      · split
        · intro e he
          simp only [List.mem_append, List.mem_singleton] at he
          rcases he with he | rfl
          · exact hP e he
          · exact ⟨by simp, by simp⟩
        · exact hP
      · exact foldl_expandChild_prunedFlags s c current _ _ _ hP

/-! ### Determinism up to timestamps -/

/-- Two solver states that agree on everything except the timestamps inside
their logs. -/
def SameData (st1 st2 : SolveState F) : Prop :=
  st1.queue = st2.queue ∧ st1.steps.map stepData = st2.steps.map stepData ∧
    st1.steps.length = st2.steps.length ∧ st1.bestCost = st2.bestCost ∧
    st1.bestPath = st2.bestPath ∧ st1.solutionCounter = st2.solutionCounter ∧
    st1.exploredCount = st2.exploredCount ∧ st1.prunedMutatedIds = st2.prunedMutatedIds

theorem expandChild_sameData (s : Solver F) (c1 c2 : Nat → Int)
    (cur : PartialSolution F) (cp : List Nat) (st1 st2 : SolveState F) (i : Nat)
    (h : SameData st1 st2) :
    SameData (expandChild s c1 cur cp st1 i) (expandChild s c2 cur cp st2 i) := by
  obtain ⟨q1, steps1, bc1, bp1, sc1, ec1, pm1⟩ := st1
  obtain ⟨q2, steps2, bc2, bp2, sc2, ec2, pm2⟩ := st2
  obtain ⟨hq, hsd, hsl, hbc, hbp, hsc, hec, hpm⟩ := h
  simp only at hq hsd hsl hbc hbp hsc hec hpm
  subst hq hbc hbp hsc hec hpm
  dsimp only [expandChild]
  split
  · exact ⟨rfl, hsd, hsl, rfl, rfl, rfl, rfl, rfl⟩
  · split
    · exact ⟨rfl, by simp [hsd, stepData], by simp [hsl], rfl, rfl, rfl, rfl, rfl⟩
    · exact ⟨rfl, by simp [hsd, stepData], by simp [hsl], rfl, rfl, rfl, rfl, rfl⟩

theorem foldl_expandChild_sameData (s : Solver F) (c1 c2 : Nat → Int)
    (cur : PartialSolution F) (cp : List Nat) :
    ∀ (L : List Nat) (st1 st2 : SolveState F), SameData st1 st2 →
      SameData (L.foldl (expandChild s c1 cur cp) st1) (L.foldl (expandChild s c2 cur cp) st2) := by
  intro L
  induction L with
  | nil => exact fun st1 st2 h => h
  | cons i L ih =>
    exact fun st1 st2 h => ih _ _ (expandChild_sameData s c1 c2 cur cp st1 st2 i h)

theorem solveStep_sameData (s : Solver F) (c1 c2 : Nat → Int) (st1 st2 : SolveState F)
    (h : SameData st1 st2) :
    SameData (solveStep s c1 st1) (solveStep s c2 st2) := by
  obtain ⟨q1, steps1, bc1, bp1, sc1, ec1, pm1⟩ := st1
  obtain ⟨q2, steps2, bc2, bp2, sc2, ec2, pm2⟩ := st2
  obtain ⟨hq, hsd, hsl, hbc, hbp, hsc, hec, hpm⟩ := h
  simp only at hq hsd hsl hbc hbp hsc hec hpm
  subst hq hbc hbp hsc hec hpm
  dsimp only [solveStep]
  cases hsort : q1.insertionSort (fun a b => a.lowerBound ≤ b.lowerBound) with
  | nil => exact ⟨rfl, hsd, hsl, rfl, rfl, rfl, rfl, rfl⟩
  | cons current rest =>
    by_cases hprune : bc1 ≤ current.lowerBound
    · simp only [hprune, if_true]
      exact ⟨rfl, by simp [hsd, stepData], by simp [hsl], rfl, rfl, rfl, rfl, rfl⟩
    · simp only [hprune, if_false]
      by_cases hlev : current.level = s.n
      · simp only [hlev, if_true]
        by_cases himpr : current.cost +
            matrixGet s.matrix ((current.path.map (nodeGet s.nodeMap)).getLastD 0)
              ((current.path.map (nodeGet s.nodeMap)).headD 0) < bc1
        · simp only [himpr, if_true]
          exact ⟨rfl, by simp [hsd, stepData], by simp [hsl], rfl, rfl, rfl, rfl, rfl⟩
        · simp only [himpr, if_false]
          exact ⟨rfl, hsd, hsl, rfl, rfl, rfl, rfl, rfl⟩
      · simp only [hlev, if_false]
        exact foldl_expandChild_sameData s c1 c2 current _ _ _ _
          ⟨rfl, hsd, hsl, rfl, rfl, rfl, rfl, rfl⟩

theorem solveLoop_sameData (s : Solver F) (c1 c2 : Nat → Int) :
    ∀ (fuel : Nat) (st1 st2 : SolveState F), SameData st1 st2 →
      (solveLoop s c1 fuel st1 = none ∧ solveLoop s c2 fuel st2 = none) ∨
        ∃ f1 f2, solveLoop s c1 fuel st1 = some f1 ∧ solveLoop s c2 fuel st2 = some f2 ∧
          SameData f1 f2 := by
  intro fuel
  induction fuel with
  | zero =>
    intro st1 st2 h
    have hq : st1.queue = st2.queue := h.1
    unfold solveLoop
    by_cases he : st1.queue.isEmpty
    · right
      exact ⟨st1, st2, by simp [he], by simp [← hq, he], h⟩
    · left
      constructor
      · simp [he]
      · rw [← hq]
        simp [he]
  | succ fuel ih =>
    intro st1 st2 h
    have hq : st1.queue = st2.queue := h.1
    unfold solveLoop
    by_cases he : st1.queue.isEmpty
    · right
      exact ⟨st1, st2, by simp [he], by simp [← hq, he], h⟩
    · have he2 : st2.queue.isEmpty = false := by
        rw [← hq]
        simpa using he
      simp only [he2, eq_self_iff_true, if_false, Bool.false_eq_true]
      simp only [show st1.queue.isEmpty = false by simpa using he, if_false, Bool.false_eq_true]
      exact ih _ _ (solveStep_sameData s c1 c2 st1 st2 h)

/-- Re-running the solver on identical input yields identical results up to
timestamps. -/
theorem solve_deterministic (s : Solver F) (c1 c2 : Nat → Int) :
    (solve s c1).map resultData = (solve s c2).map resultData := by
  unfold solve solveState
  rcases List.lookup s.sourceNodeId s.nodeMap with _ | i
  · rfl
  · dsimp only
    have hinit : SameData (initialState s c1 i) (initialState s c2 i) := by
      exact ⟨rfl, rfl, rfl, rfl, rfl, rfl, rfl, rfl⟩
    rcases solveLoop_sameData s c1 c2 (solveFuel s.n) _ _ hinit with ⟨h1, h2⟩ | ⟨f1, f2, h1, h2, hf⟩
    · rw [h1, h2]
    · rw [h1, h2]
      dsimp only [Except.map]
      obtain ⟨hq, hsd, hsl, hbc, hbp, hsc, hec, hpm⟩ := hf
      simp [finishSolve, resultData, hsd, hbc, hbp, hec]

/-! ### The configuration error and the one-city instance -/

theorem solveState_error_of_lookup_none (s : Solver F) (c : Nat → Int)
    (h : List.lookup s.sourceNodeId s.nodeMap = none) :
    solveState s c = .error ("Source node " ++ s.sourceNodeId ++ " not found") := by
  unfold solveState
  rw [h]

theorem solveLoop_succ_eq (s : Solver F) (c : Nat → Int) (fuel : Nat) (st : SolveState F) :
    solveLoop s c (fuel + 1) st =
      if st.queue.isEmpty then some st else solveLoop s c fuel (solveStep s c st) := rfl

theorem solveLoop_of_empty (s : Solver F) (c : Nat → Int) (fuel : Nat) (st : SolveState F)
    (h : st.queue = []) : solveLoop s c fuel st = some st := by
  cases fuel <;> simp [solveLoop, h]

/-- The root node of the one-city solver. -/
theorem singleCity_root (a : String) (d : Cost F) :
    (createPartialSolution { matrix := [[d]], nodeMap := [(a, 0)], sourceNodeId := a } 0 [0] 0 1 none).1 =
      { id := "sol-0", path := [a], visited := [a], cost := 0, lowerBound := d, level := 1,
        isComplete := true, isPruned := false, parentId := none } := by
  have hid : ("sol-" ++ toString 0 : String) = "sol-0" := by decide
  simp [createPartialSolution, calculateLowerBound, pathCost, matrixGet, reverseGet,
    Solver.n, Solver.reverseNodeMap, List.lookup, List.getD, hid]

/-- Running `solve` on exactly one city: it returns normally with exactly two
events (the root `explore` plus either a `complete` or a `prune`), and the
"best tour" is the degenerate cycle `[a, a]` of cost `d = matrix[0][0]`
whenever `d` is finite, `none` otherwise. -/
theorem solve_singleCity (a : String) (d : Cost F) (c : Nat → Int) :
    ∃ r, solve { matrix := [[d]], nodeMap := [(a, 0)], sourceNodeId := a } c = .ok r ∧
      r.steps.length = 2 ∧ r.exploredCount = 1 ∧
      r.bestSolution = (if d = ⊤ then none else some
        { id := "final-solution", path := [a, a], visited := [a], cost := d, lowerBound := d,
          level := 1, isComplete := true, isPruned := false, parentId := none }) := by
  set s : Solver F := { matrix := [[d]], nodeMap := [(a, 0)], sourceNodeId := a } with hs
  have hn : s.n = 1 := rfl
  have hlk : List.lookup s.sourceNodeId s.nodeMap = some 0 := by
    simp [hs, List.lookup]
  set root : PartialSolution F :=
    { id := "sol-0", path := [a], visited := [a], cost := 0, lowerBound := d, level := 1,
      isComplete := true, isPruned := false, parentId := none } with hrootdef
  have hroot : (createPartialSolution s 0 [0] 0 1 none).1 = root := singleCity_root a d
  have hcounter : (createPartialSolution s 0 [0] 0 1 none).2 = 1 := rfl
  set st0 : SolveState F :=
    { queue := [root], steps := [{ solution := root, action := .explore, timestamp := c 0 }],
      bestCost := ⊤, bestPath := [], solutionCounter := 1, exploredCount := 0,
      prunedMutatedIds := [] } with hst0
  have hinit : initialState s c 0 = st0 := by
    unfold initialState
    dsimp only
    rw [hroot, hcounter]
  have hfuel : solveFuel s.n = 26 + 1 := by norm_num [solveFuel, hn]
  have hsort : st0.queue.insertionSort (fun a b => a.lowerBound ≤ b.lowerBound) = [root] := by
    simp [hst0, List.insertionSort]
  rcases d with _ | q
  · -- d = Infinity: the root is pruned at dequeue
    have hstep : solveStep s c st0 =
        { queue := [], steps := st0.steps ++
            [{ solution := { root with isPruned := true }, action := .prune, timestamp := c 1 }],
          bestCost := ⊤, bestPath := [], solutionCounter := 1, exploredCount := 1,
          prunedMutatedIds := ["sol-0"] } := by
      dsimp only [solveStep]
      rw [hsort]
      dsimp only
      split
      · simp [hst0, hrootdef]
      · next hcond =>
        exact absurd le_top hcond
    have hloop : solveLoop s c (solveFuel s.n) (initialState s c 0) = some
        (solveStep s c st0) := by
      rw [hfuel, hinit, solveLoop_succ_eq]
      rw [if_neg (by simp [hst0])]
      exact solveLoop_of_empty s c 26 _ (by rw [hstep])
    refine ⟨finishSolve s (solveStep s c st0), ?_, ?_, ?_, ?_⟩
    · unfold solve solveState
      rw [hlk]
      dsimp only
      rw [hloop]
      rfl
    · rw [hstep]
      simp [finishSolve, hst0]
    · rw [hstep]
      simp [finishSolve]
    · rw [hstep]
      simp [finishSolve, WithTop.none_eq_top]
  · -- d finite: the root completes and improves the incumbent
    have hedge : matrixGet [[(q : Cost F)]] (nodeGet [(a, 0)] a) (nodeGet [(a, 0)] a) =
        (q : Cost F) := by
      simp [matrixGet, nodeGet, List.lookup]
    have hstep : solveStep s c st0 =
        { queue := [],
          steps := st0.steps ++
            [{ solution := { root with path := [a, a], cost := (q : Cost F), isComplete := true },
               action := .complete, timestamp := c 1 }],
          bestCost := (q : Cost F), bestPath := [a, a], solutionCounter := 1, exploredCount := 1,
          prunedMutatedIds := [] } := by
      dsimp only [solveStep]
      rw [hsort]
      dsimp only
      split
      · next hcond =>
        simp [hst0, hrootdef] at hcond
      · split
        · split
          · next himpr =>
            simp [hst0, hrootdef, matrixGet, nodeGet, List.lookup, List.getD, Option.getD,
              WithTop.some_eq_coe]
          · next himpr =>
            exfalso
            apply himpr
            simp [hst0, hrootdef, matrixGet, nodeGet, List.lookup, List.getD, Option.getD,
              WithTop.some_eq_coe, WithTop.coe_lt_top]
        · next hlev =>
          exact absurd (by simp [hrootdef, hn]) hlev
    have hloop : solveLoop s c (solveFuel s.n) (initialState s c 0) = some
        (solveStep s c st0) := by
      rw [hfuel, hinit, solveLoop_succ_eq]
      rw [if_neg (by simp [hst0])]
      exact solveLoop_of_empty s c 26 _ (by rw [hstep])
    refine ⟨finishSolve s (solveStep s c st0), ?_, ?_, ?_, ?_⟩
    · unfold solve solveState
      rw [hlk]
      dsimp only
      rw [hloop]
      rfl
    · rw [hstep]
      simp [finishSolve, hst0]
    · rw [hstep]
      simp [finishSolve]
    · rw [hstep]
      simp [finishSolve, hn]
      rfl

/-! ### Assembled run facts -/

theorem except_eq_ok_of_toOption {α : Type} (e : Except String α) (r : α)
    (h : e.toOption = some r) : e = .ok r := by
  cases e with
  | error err => simp [Except.toOption] at h
  | ok v =>
    simp [Except.toOption] at h
    rw [h]

theorem initial_exploreBalance (s : Solver F) (c : Nat → Int) (i : Nat) :
    exploreBalance (initialState s c i) := by
  simp [exploreBalance, exploreEventCount, initialState]

theorem initial_completesDecreasing (s : Solver F) (c : Nat → Int) (i : Nat) :
    completesDecreasing (initialState s c i) := by
  constructor
  · simp [initialState]
  · simp [initialState]

theorem initial_levelsMatch (s : Solver F) (c : Nat → Int) (i : Nat) :
    levelsMatch (initialState s c i) := by
  constructor
  · intro sol hsol
    simp only [initialState, List.mem_singleton] at hsol
    subst hsol
    simp [createPartialSolution]
  · intro e he
    simp only [initialState, List.mem_singleton] at he
    subst he
    refine ⟨by simp, fun _ => ?_⟩
    simp [createPartialSolution]

theorem initial_prunedFlags (s : Solver F) (c : Nat → Int) (i : Nat) :
    prunedFlags (initialState s c i) := by
  intro e he
  simp only [initialState, List.mem_singleton] at he
  subst he
  exact ⟨fun _ => by simp [createPartialSolution], by simp⟩

theorem final_exploreBalance (s : Solver F) (c : Nat → Int) (r : SolveResult F)
    (h : solve s c = .ok r) : r.exploredCount = exploreEventCount r.steps := by
  obtain ⟨i, final, hlk, hloop, hr⟩ := solve_ok_inversion s c r h
  have hbal : exploreBalance final :=
    solveLoop_preserve s c (fun st => solveStep_exploreBalance s c st) _ _ _ hloop
      (initial_exploreBalance s c i)
  have hq : final.queue = [] := solveLoop_final_queue s c _ _ _ hloop
  unfold exploreBalance at hbal
  rw [hq] at hbal
  simp at hbal
  rw [hr]
  simpa [finishSolve] using hbal

theorem final_completesDecreasing (s : Solver F) (c : Nat → Int) (r : SolveResult F)
    (h : solve s c = .ok r) :
    (r.steps.filter (fun e => decide (e.action = StepAction.complete))).Pairwise
      (fun a b => b.solution.cost < a.solution.cost) := by
  obtain ⟨i, final, hlk, hloop, hr⟩ := solve_ok_inversion s c r h
  have hcd : completesDecreasing final :=
    solveLoop_preserve s c (fun st => solveStep_completesDecreasing s c st) _ _ _ hloop
      (initial_completesDecreasing s c i)
  rw [hr]
  exact hcd.1

theorem final_levelsMatch (s : Solver F) (c : Nat → Int) (r : SolveResult F)
    (h : solve s c = .ok r) :
    ∀ e ∈ r.steps,
      (e.action = StepAction.complete → e.solution.path.length = e.solution.level + 1) ∧
      (e.action ≠ StepAction.complete → e.solution.level = e.solution.path.length) := by
  obtain ⟨i, final, hlk, hloop, hr⟩ := solve_ok_inversion s c r h
  have hlm : levelsMatch final :=
    solveLoop_preserve s c (fun st => solveStep_levelsMatch s c st) _ _ _ hloop
      (initial_levelsMatch s c i)
  rw [hr]
  exact hlm.2

theorem setPruned_eq_self (sol : PartialSolution F) (h : sol.isPruned = true) :
    { sol with isPruned := true } = sol := by
  cases sol
  simp only at h
  simp [h]

theorem final_stepSolutionAtEnd (s : Solver F) (c : Nat → Int) (st : SolveState F)
    (h : solveState s c = .ok st) :
    ∀ e ∈ st.steps,
      stepSolutionAtEnd st.prunedMutatedIds e = e.solution ∨
        (e.action = StepAction.explore ∧ e.solution.isPruned = false ∧
          stepSolutionAtEnd st.prunedMutatedIds e = { e.solution with isPruned := true }) := by
  obtain ⟨i, hlk, hloop⟩ := solveState_ok_inversion s c st h
  have hpf : prunedFlags st :=
    solveLoop_preserve s c (fun st => solveStep_prunedFlags s c st) _ _ _ hloop
      (initial_prunedFlags s c i)
  intro e he
  by_cases hcond : e.action ≠ StepAction.complete ∧ e.solution.id ∈ st.prunedMutatedIds
  · cases hact : e.action with
    | explore =>
      right
      refine ⟨rfl, (hpf e he).1 hact, ?_⟩
      unfold stepSolutionAtEnd
      rw [if_pos hcond]
    | prune =>
      left
      unfold stepSolutionAtEnd
      rw [if_pos hcond]
      exact setPruned_eq_self e.solution ((hpf e he).2 hact)
    | complete => exact absurd hact hcond.1
  · left
    unfold stepSolutionAtEnd
    rw [if_neg hcond]

/-! ### Concrete instances -/

/-- A constant clock used for the concrete runs. -/
def zeroClock : Nat → Int := fun _ => 0

/-- The unit-cost triangle A, B, C with source A. -/
def triSolver : Solver ℤ :=
  { matrix := [[0, 1, 1], [1, 0, 1], [1, 1, 0]]
    nodeMap := [("A", 0), ("B", 1), ("C", 2)]
    sourceNodeId := "A" }

/-- The 4-city instance from the specification (§8): optimal tour cost 80. -/
def spec4Solver : Solver ℤ :=
  { matrix := [[0, 10, 15, 20], [10, 0, 35, 25], [15, 35, 0, 30], [20, 25, 30, 0]]
    nodeMap := [("A", 0), ("B", 1), ("C", 2), ("D", 3)]
    sourceNodeId := "A" }

/-- A disconnected instance: city 0 has only infinite edges, cities 1 and 2
are joined by a finite edge. -/
def discMatrix : List (List (Cost ℤ)) := [[0, ⊤, ⊤], [⊤, 0, 1], [⊤, 1, 0]]

/-- A single city with a finite diagonal entry `0`.  (The solver-facing
builder `createCostMatrix` in `types/tsp` writes `Infinity` on the diagonal
— "No self-loops"; only the display-only adjacency-matrix view shows `0`.
This variant exercises the finite-diagonal branch of the one-city case.) -/
def oneCitySolver : Solver ℤ :=
  { matrix := [[0]], nodeMap := [("A", 0)], sourceNodeId := "A" }

/-- A single city whose diagonal entry is `Infinity`, exactly as the
repository's `createCostMatrix` builds it (`matrix[i][j] = Infinity; // No
self-loops`). -/
def oneCityTopSolver : Solver ℤ :=
  { matrix := [[⊤]], nodeMap := [("A", 0)], sourceNodeId := "A" }

/-- Placeholder event used as the `getD` default when indexing logs. -/
def dummyStep : BranchingStep ℤ :=
  { solution :=
      { id := "", path := [], visited := [], cost := 0, lowerBound := 0, level := 0,
        isComplete := false, isPruned := false, parentId := none }
    action := .explore
    timestamp := 0 }

/-- The empty solver state, used as the `getD` default. -/
def emptyState : SolveState F :=
  { queue := [], steps := [], bestCost := ⊤, bestPath := [], solutionCounter := 0,
    exploredCount := 0, prunedMutatedIds := [] }

/-- Projects the final state out of a finished `solveState` run. -/
def stateOf (e : Except String (SolveState F)) : SolveState F :=
  e.toOption.getD emptyState

/-- The empty result, used as the `getD` default. -/
def emptyResult : SolveResult F :=
  { bestSolution := none, steps := [], exploredCount := 0 }

/-- Projects the result out of a finished `solve` run. -/
def resultOf (e : Except String (SolveResult F)) : SolveResult F :=
  e.toOption.getD emptyResult

theorem foldl_min_eq_top {β : Type} (f : β → Cost F) :
    ∀ L : List β, (∀ x ∈ L, f x = ⊤) →
      L.foldl (fun acc x => min acc (f x)) ⊤ = ⊤ := by
  have key : ∀ (L : List β) (a : Cost F), a = ⊤ → (∀ x ∈ L, f x = ⊤) →
      L.foldl (fun acc x => min acc (f x)) a = ⊤ := by
    intro L
    induction L with
    | nil => intro a ha _; simpa using ha
    | cons x L ih =>
      intro a ha hL
      simp only [List.foldl_cons]
      refine ih _ ?_ (fun y hy => hL y (List.mem_cons_of_mem _ hy))
      rw [ha, hL x (List.mem_cons_self _ _)]
      simp
  exact fun L => key L ⊤ rfl

/-! ### Claim theorems -/

/-- Claim C6 — confirmed.  For every matrix and mapping, `solve` fails with
the distinct "source not found" configuration error exactly when the
designated source identifier is not a key of the mapping; the error is
thrown before any frontier work, so the caller receives no events (the
`Except.error` branch carries no result record at all). -/
theorem C6_config_error_iff_source_missing (s : Solver F) (c : Nat → Int) :
    solve s c = .error ("Source node " ++ s.sourceNodeId ++ " not found") ↔
      List.lookup s.sourceNodeId s.nodeMap = none := by
  constructor
  · intro h
    rcases hlk : List.lookup s.sourceNodeId s.nodeMap with _ | i
    · rfl
    · obtain ⟨final, hok, -⟩ := solveState_ok_of_lookup s c i hlk
      have : solve s c = .ok (finishSolve s final) := by
        unfold solve
        rw [hok]
        rfl
      rw [this] at h
      exact absurd h (by simp)
  · intro h
    unfold solve
    rw [solveState_error_of_lookup_none s c h]
    rfl

/-- Claim C9 — confirmed.  Two invocations of `solve` on the identical
matrix, mapping and source produce identical event sequences (action and
full solution snapshot), identical best tours and identical explored counts;
only the timestamps may differ between the two runs (`resultData` erases
exactly the timestamps). -/
theorem C9_idempotent_rerun (s : Solver F) (c1 c2 : Nat → Int) :
    (solve s c1).map resultData = (solve s c2).map resultData :=
  solve_deterministic s c1 c2

/-- Claim C10 — confirmed.  Whenever `solve` returns normally, the returned
`exploredCount` equals the number of `explore` events in the returned log:
every pushed node is logged with exactly one `explore` event at push time and
every pushed node is dequeued exactly once before termination. -/
theorem C10_exploredCount_eq_explore_events (s : Solver F) (c : Nat → Int)
    (r : SolveResult F) (h : solve s c = .ok r) :
    r.exploredCount = exploreEventCount r.steps :=
  final_exploreBalance s c r h

/-- Witness for C10 on the unit triangle. -/
theorem C10_witness :
    solve triSolver zeroClock = .ok (resultOf (solve triSolver zeroClock)) ∧
      (resultOf (solve triSolver zeroClock)).exploredCount =
        exploreEventCount (resultOf (solve triSolver zeroClock)).steps := by
  have hok : solve triSolver zeroClock = .ok (resultOf (solve triSolver zeroClock)) :=
    except_eq_ok_of_toOption _ _ (by decide)
  exact ⟨hok, C10_exploredCount_eq_explore_events triSolver zeroClock _ hok⟩

/-- Claim C7 — corrected, counterexample.  On the unit triangle the node
`sol-4` (path A→C→B, a complete level-3 node) is pushed with an `explore`
event (index 4), and when it is later dequeued it does not improve the
incumbent (its exact cost 3 equals the best cost set by the `complete` event
at index 5) — yet it still emits a `prune` event (index 6), contradicting
"a dequeued complete node that does not strictly improve the incumbent emits
no event at all". -/
theorem C7_counterexample :
    solveState triSolver zeroClock = .ok (stateOf (solveState triSolver zeroClock)) ∧
      (stateOf (solveState triSolver zeroClock)).steps.length = 7 ∧
      ((stateOf (solveState triSolver zeroClock)).steps.getD 4 dummyStep).action =
        StepAction.explore ∧
      ((stateOf (solveState triSolver zeroClock)).steps.getD 4 dummyStep).solution.id = "sol-4" ∧
      ((stateOf (solveState triSolver zeroClock)).steps.getD 6 dummyStep).action =
        StepAction.prune ∧
      ((stateOf (solveState triSolver zeroClock)).steps.getD 6 dummyStep).solution.id = "sol-4" ∧
      ((stateOf (solveState triSolver zeroClock)).steps.getD 6 dummyStep).solution.level =
        Solver.n triSolver ∧
      ((stateOf (solveState triSolver zeroClock)).steps.getD 6 dummyStep).solution.isComplete =
        true ∧
      ((stateOf (solveState triSolver zeroClock)).steps.getD 5 dummyStep).action =
        StepAction.complete ∧
      ((stateOf (solveState triSolver zeroClock)).steps.getD 5 dummyStep).solution.cost =
        ((3 : ℤ) : Cost ℤ) ∧
      ((stateOf (solveState triSolver zeroClock)).steps.getD 6 dummyStep).solution.lowerBound =
        ((3 : ℤ) : Cost ℤ) := by
  refine ⟨except_eq_ok_of_toOption _ _ (by decide), ?_⟩
  decide

/-- Claim C7 — corrected, amended theorem.  In the event log of any normal
`solve` run the costs carried by the `complete` events are strictly
decreasing in log order.  (The second half of the original claim is false: a
dequeued complete node that cannot improve the incumbent emits a `prune`
event when its bound is not below the incumbent — see the counterexample.) -/
theorem C7_complete_costs_strictly_decrease (s : Solver F) (c : Nat → Int)
    (r : SolveResult F) (h : solve s c = .ok r) :
    (r.steps.filter (fun e => decide (e.action = StepAction.complete))).Pairwise
      (fun a b => b.solution.cost < a.solution.cost) :=
  final_completesDecreasing s c r h

/-- Witness for the amended C7 on the unit triangle. -/
theorem C7_witness :
    solve triSolver zeroClock = .ok (resultOf (solve triSolver zeroClock)) ∧
      ((resultOf (solve triSolver zeroClock)).steps.filter
          (fun e => decide (e.action = StepAction.complete))).Pairwise
        (fun a b => b.solution.cost < a.solution.cost) := by
  have hok : solve triSolver zeroClock = .ok (resultOf (solve triSolver zeroClock)) :=
    except_eq_ok_of_toOption _ _ (by decide)
  exact ⟨hok, C7_complete_costs_strictly_decrease triSolver zeroClock _ hok⟩

/-- Claim C8 — corrected, counterexample.  The `complete` event of the unit
triangle run carries a snapshot whose `level` is 3 but whose `path` has 4
cities (the closing edge is appended to the path while `level` is left
unchanged), contradicting "the level field equals the number of cities in
its path field … including the snapshot carried by a complete event". -/
theorem C8_counterexample :
    solveState triSolver zeroClock = .ok (stateOf (solveState triSolver zeroClock)) ∧
      ((stateOf (solveState triSolver zeroClock)).steps.getD 5 dummyStep).action =
        StepAction.complete ∧
      ((stateOf (solveState triSolver zeroClock)).steps.getD 5 dummyStep).solution.level = 3 ∧
      ((stateOf (solveState triSolver zeroClock)).steps.getD 5 dummyStep).solution.path.length =
        4 ∧
      ¬ ((stateOf (solveState triSolver zeroClock)).steps.getD 5 dummyStep).solution.level =
        ((stateOf (solveState triSolver zeroClock)).steps.getD 5 dummyStep).solution.path.length := by
  refine ⟨except_eq_ok_of_toOption _ _ (by decide), ?_⟩
  decide

/-- Claim C8 — corrected, amended theorem.  In any normal `solve` run, every
`explore` and `prune` snapshot has `level` equal to the number of cities in
its `path`, while every `complete` snapshot has one extra city in its `path`
(the appended closing edge): `path.length = level + 1`. -/
theorem C8_level_matches_path (s : Solver F) (c : Nat → Int) (r : SolveResult F)
    (h : solve s c = .ok r) :
    ∀ e ∈ r.steps,
      (e.action ≠ StepAction.complete → e.solution.level = e.solution.path.length) ∧
      (e.action = StepAction.complete → e.solution.path.length = e.solution.level + 1) := by
  intro e he
  exact ⟨(final_levelsMatch s c r h e he).2, (final_levelsMatch s c r h e he).1⟩

/-- Witness for the amended C8 on the unit triangle. -/
theorem C8_witness :
    solve triSolver zeroClock = .ok (resultOf (solve triSolver zeroClock)) ∧
      ∀ e ∈ (resultOf (solve triSolver zeroClock)).steps,
        (e.action ≠ StepAction.complete → e.solution.level = e.solution.path.length) ∧
        (e.action = StepAction.complete → e.solution.path.length = e.solution.level + 1) := by
  have hok : solve triSolver zeroClock = .ok (resultOf (solve triSolver zeroClock)) :=
    except_eq_ok_of_toOption _ _ (by decide)
  exact ⟨hok, C8_level_matches_path triSolver zeroClock _ hok⟩

/-- Claim C3 — corrected, counterexample.  Events are not value-like
snapshots: `prune` and `explore` events alias the live node object.  On the
unit triangle, node `sol-4` is logged with an `explore` event (isPruned =
false at append time) and later dequeued and pruned in place; at the end of
the solve that earlier `explore` event's solution object shows
`isPruned = true`, retroactively changed. -/
theorem C3_counterexample :
    solveState triSolver zeroClock = .ok (stateOf (solveState triSolver zeroClock)) ∧
      ((stateOf (solveState triSolver zeroClock)).steps.getD 4 dummyStep).action =
        StepAction.explore ∧
      ((stateOf (solveState triSolver zeroClock)).steps.getD 4 dummyStep).solution.isPruned =
        false ∧
      "sol-4" ∈ (stateOf (solveState triSolver zeroClock)).prunedMutatedIds ∧
      stepSolutionAtEnd (stateOf (solveState triSolver zeroClock)).prunedMutatedIds
          ((stateOf (solveState triSolver zeroClock)).steps.getD 4 dummyStep) ≠
        ((stateOf (solveState triSolver zeroClock)).steps.getD 4 dummyStep).solution := by
  refine ⟨except_eq_ok_of_toOption _ _ (by decide), ?_⟩
  decide

/-- Claim C3 — corrected, amended theorem.  At the end of any normal solve,
every logged event's solution object is either unchanged since it was
appended, or it is an `explore` event of a node that was later dequeued and
pruned in place, in which case it now shows `isPruned = true` where it showed
`isPruned = false` at append time.  `complete` events (spread copies) are
always unchanged. -/
theorem C3_events_alias_pruned_nodes (s : Solver F) (c : Nat → Int) (st : SolveState F)
    (h : solveState s c = .ok st) :
    ∀ e ∈ st.steps,
      stepSolutionAtEnd st.prunedMutatedIds e = e.solution ∨
        (e.action = StepAction.explore ∧ e.solution.isPruned = false ∧
          stepSolutionAtEnd st.prunedMutatedIds e = { e.solution with isPruned := true }) :=
  final_stepSolutionAtEnd s c st h

/-- Witness for the amended C3 on the unit triangle. -/
theorem C3_witness :
    solveState triSolver zeroClock = .ok (stateOf (solveState triSolver zeroClock)) ∧
      ∀ e ∈ (stateOf (solveState triSolver zeroClock)).steps,
        stepSolutionAtEnd (stateOf (solveState triSolver zeroClock)).prunedMutatedIds e =
            e.solution ∨
          (e.action = StepAction.explore ∧ e.solution.isPruned = false ∧
            stepSolutionAtEnd (stateOf (solveState triSolver zeroClock)).prunedMutatedIds e =
              { e.solution with isPruned := true }) := by
  have hok : solveState triSolver zeroClock = .ok (stateOf (solveState triSolver zeroClock)) :=
    except_eq_ok_of_toOption _ _ (by decide)
  exact ⟨hok, C3_events_alias_pruned_nodes triSolver zeroClock _ hok⟩

/-- Claim C4 — corrected, counterexample.  A partial path `[0]` on the
disconnected instance has only infinite edges from its last city to the
unvisited set and only infinite edges from the unvisited set back to the
source, yet the estimator returns the finite value 1 (the MST cost of the
unvisited pair), not infinity: the infinite min-edge terms are dropped, not
propagated. -/
theorem C4_counterexample :
    ([0] : List Nat) ≠ [] ∧ ([0] : List Nat).length < 3 ∧ unvisitedCities 3 [0] ≠ [] ∧
      (∀ u ∈ unvisitedCities 3 [0], matrixGet discMatrix 0 u = ⊤) ∧
      (∀ u ∈ unvisitedCities 3 [0], matrixGet discMatrix u 0 = ⊤) ∧
      calculateLowerBound discMatrix 3 [0] [0] = ((1 : ℤ) : Cost ℤ) ∧
      calculateLowerBound discMatrix 3 [0] [0] ≠ ⊤ := by
  decide

/-- Claim C4 — corrected, amended theorem.  When every edge from the path's
last city to the unvisited set is infinite, *or* every edge from the
unvisited set back to the source is infinite, `calculateLowerBound` *drops*
the corresponding min-edge term (the explicit `!== Infinity` guards) instead
of propagating infinity: the bound equals the path cost plus each min-edge
term that is finite (an infinite one contributes `0`) plus the MST term, so
it is infinite only if the path cost or the MST term is. -/
theorem C4_infinite_terms_dropped (m : List (List (Cost F))) (n : Nat) (p : List Nat)
    (hne : p ≠ []) (hlt : p.length < n)
    (hu : unvisitedCities n p ≠ [])
    (hinf : (∀ u ∈ unvisitedCities n p, matrixGet m (p.getLastD 0) u = ⊤) ∨
      (∀ u ∈ unvisitedCities n p, matrixGet m u (p.headD 0) = ⊤)) :
    calculateLowerBound m n p p =
      pathCost m p +
        (if ((unvisitedCities n p).foldl
            (fun acc node => min acc (matrixGet m (p.getLastD 0) node)) ⊤) = ⊤ then 0
          else (unvisitedCities n p).foldl
            (fun acc node => min acc (matrixGet m (p.getLastD 0) node)) ⊤) +
        (if 1 < (unvisitedCities n p).length then calculateMSTCost m (unvisitedCities n p)
          else 0) +
        (if ((unvisitedCities n p).foldl
            (fun acc node => min acc (matrixGet m node (p.headD 0))) ⊤) = ⊤ then 0
          else (unvisitedCities n p).foldl
            (fun acc node => min acc (matrixGet m node (p.headD 0))) ⊤) ∧
      (calculateLowerBound m n p p = ⊤ →
        pathCost m p = ⊤ ∨ calculateMSTCost m (unvisitedCities n p) = ⊤) := by
  have h0 : ¬ p.length = 0 := by
    simpa [List.length_eq_zero] using hne
  have hulen : 0 < (unvisitedCities n p).length := List.length_pos.mpr hu
  have hform : calculateLowerBound m n p p =
      pathCost m p +
        (if ((unvisitedCities n p).foldl
            (fun acc node => min acc (matrixGet m (p.getLastD 0) node)) ⊤) = ⊤ then 0
          else (unvisitedCities n p).foldl
            (fun acc node => min acc (matrixGet m (p.getLastD 0) node)) ⊤) +
        (if 1 < (unvisitedCities n p).length then calculateMSTCost m (unvisitedCities n p)
          else 0) +
        (if ((unvisitedCities n p).foldl
            (fun acc node => min acc (matrixGet m node (p.headD 0))) ⊤) = ⊤ then 0
          else (unvisitedCities n p).foldl
            (fun acc node => min acc (matrixGet m node (p.headD 0))) ⊤) := by
    unfold calculateLowerBound
    rw [if_neg h0, if_pos hlt]
    dsimp only
    rw [show ((List.range n).filter (fun i => !(p.contains i))) = unvisitedCities n p from rfl]
    rw [if_pos hulen]
    by_cases hMF : ((unvisitedCities n p).foldl
        (fun acc node => min acc (matrixGet m (p.getLastD 0) node)) ⊤) = ⊤ <;>
      by_cases hMT : ((unvisitedCities n p).foldl
        (fun acc node => min acc (matrixGet m node (p.headD 0))) ⊤) = ⊤ <;>
      by_cases hL : 1 < (unvisitedCities n p).length <;>
      simp only [List.getLastD_eq_getLast?, List.headD_eq_head?_getD] at hMF hMT <;>
      simp [hMF, hMT, hL, add_assoc]
  refine ⟨hform, ?_⟩
  intro htop
  rw [hform] at htop
  have hA : (if ((unvisitedCities n p).foldl
      (fun acc node => min acc (matrixGet m (p.getLastD 0) node)) ⊤) = ⊤ then (0 : Cost F)
      else (unvisitedCities n p).foldl
        (fun acc node => min acc (matrixGet m (p.getLastD 0) node)) ⊤) ≠ ⊤ := by
    split
    · simp
    · next h => exact h
  have hC : (if ((unvisitedCities n p).foldl
      (fun acc node => min acc (matrixGet m node (p.headD 0))) ⊤) = ⊤ then (0 : Cost F)
      else (unvisitedCities n p).foldl
        (fun acc node => min acc (matrixGet m node (p.headD 0))) ⊤) ≠ ⊤ := by
    split
    · simp
    · next h => exact h
  have hB : (if 1 < (unvisitedCities n p).length
      then calculateMSTCost m (unvisitedCities n p) else (0 : Cost F)) = ⊤ →
      calculateMSTCost m (unvisitedCities n p) = ⊤ := by
    split
    · exact fun h => h
    · intro h
      exact absurd h (by simp)
  rcases WithTop.add_eq_top.mp htop with h | h
  · rcases WithTop.add_eq_top.mp h with h2 | h2
    · rcases WithTop.add_eq_top.mp h2 with h3 | h3
      · exact Or.inl h3
      · exact absurd h3 hA
    · exact Or.inr (hB h2)
  · exact absurd h hC

/-- Witness for the amended C4 on the disconnected instance (both sides of
the disjunction hold there; the hypothesis is discharged with the left). -/
theorem C4_witness :
    (([0] : List Nat) ≠ [] ∧ ([0] : List Nat).length < 3 ∧ unvisitedCities 3 [0] ≠ [] ∧
      ((∀ u ∈ unvisitedCities 3 [0],
          matrixGet discMatrix (([0] : List Nat).getLastD 0) u = ⊤) ∨
        (∀ u ∈ unvisitedCities 3 [0],
          matrixGet discMatrix u (([0] : List Nat).headD 0) = ⊤))) ∧
    (calculateLowerBound discMatrix 3 [0] [0] =
        pathCost discMatrix [0] +
          (if ((unvisitedCities 3 [0]).foldl
              (fun acc node =>
                min acc (matrixGet discMatrix (([0] : List Nat).getLastD 0) node)) ⊤) = ⊤
            then 0
            else (unvisitedCities 3 [0]).foldl
              (fun acc node =>
                min acc (matrixGet discMatrix (([0] : List Nat).getLastD 0) node)) ⊤) +
          (if 1 < (unvisitedCities 3 [0]).length
            then calculateMSTCost discMatrix (unvisitedCities 3 [0]) else 0) +
          (if ((unvisitedCities 3 [0]).foldl
              (fun acc node =>
                min acc (matrixGet discMatrix node (([0] : List Nat).headD 0))) ⊤) = ⊤
            then 0
            else (unvisitedCities 3 [0]).foldl
              (fun acc node =>
                min acc (matrixGet discMatrix node (([0] : List Nat).headD 0))) ⊤) ∧
      (calculateLowerBound discMatrix 3 [0] [0] = ⊤ →
        pathCost discMatrix [0] = ⊤ ∨
          calculateMSTCost discMatrix (unvisitedCities 3 [0]) = ⊤)) :=
  ⟨⟨by decide, by decide, by decide, Or.inl (by decide)⟩,
    C4_infinite_terms_dropped discMatrix 3 [0] (by decide) (by decide) (by decide)
      (Or.inl (by decide))⟩

/-- Claim C5 — corrected, counterexample.  Invoked with exactly one city
whose diagonal entry is `0`, `solve` does not crash, but it does not return
"no tour" with zero events: it returns the degenerate tour `[A, A]` and
produces two events.  (Even on the matrix the app's `createCostMatrix`
actually builds — diagonal `Infinity` — the "zero events" part fails: the
root `explore` and a `prune` event are always logged.) -/
theorem C5_counterexample :
    solve oneCitySolver zeroClock = .ok (resultOf (solve oneCitySolver zeroClock)) ∧
      (resultOf (solve oneCitySolver zeroClock)).bestSolution ≠ none ∧
      (resultOf (solve oneCitySolver zeroClock)).steps.length = 2 := by
  refine ⟨except_eq_ok_of_toOption _ _ (by decide), ?_, ?_⟩
  · decide
  · decide

/-- Claim C5 — corrected, amended theorem.  With exactly one city, `solve`
returns normally (it does not crash), but it always produces exactly two
events (the root `explore`, then a `complete` or a `prune`), never zero; it
returns the degenerate one-city tour `[a, a]` of cost `matrix[0][0]` when
that diagonal entry is finite, and "no tour" when it is infinite — which is
the case for the app's own matrices, since `createCostMatrix` writes
`Infinity` on the diagonal. -/
theorem C5_single_city_behavior (a : String) (d : Cost F) (c : Nat → Int) :
    ∃ r, solve { matrix := [[d]], nodeMap := [(a, 0)], sourceNodeId := a } c = .ok r ∧
      r.steps.length = 2 ∧ r.exploredCount = 1 ∧
      r.bestSolution = (if d = ⊤ then none else some
        { id := "final-solution", path := [a, a], visited := [a], cost := d, lowerBound := d,
          level := 1, isComplete := true, isPruned := false, parentId := none }) :=
  solve_singleCity a d c

/-! ### Prim's algorithm: run characterisation -/

/-- Minimum weight of an edge from the (position-)set `S` to position `v`,
through the city list `nodes`. -/
def cutKeyPos (m : List (List (Cost F))) (nodes : List Nat) (S : List Nat) (v : Nat) : Cost F :=
  S.foldr (fun s acc => min (matrixGet m (nodes.getD s 0) (nodes.getD v 0)) acc) ⊤

/-- One round of the Prim loop in `calculateMSTCost`, as a named function. -/
def primStepFn (m : List (List (Cost F))) (nodes : List Nat) (k : Nat)
    (st : List Nat × List (Cost F) × Cost F) : List Nat × List (Cost F) × Cost F :=
  match primSelect st.1 st.2.1 k with
  | none => st
  | some u => (u :: st.1, primUpdate m nodes (u :: st.1) st.2.1 u k, st.2.2 + st.2.1.getD u 0)

theorem foldl_const_eq_iterate {α β : Type} (f : α → α) :
    ∀ (L : List β) (st : α), L.foldl (fun st _ => f st) st = f^[L.length] st := by
  intro L
  induction L with
  | nil => intro st; rfl
  | cons x L ih =>
    intro st
    rw [List.foldl_cons, ih, List.length_cons, Function.iterate_succ_apply]

theorem calculateMSTCost_eq_iterate (m : List (List (Cost F))) (nodes : List Nat)
    (h : ¬ nodes.length ≤ 1) :
    calculateMSTCost m nodes =
      ((primStepFn m nodes nodes.length)^[nodes.length]
        (([] : List Nat), (List.replicate nodes.length (⊤ : Cost F)).set 0 0, (0 : Cost F))).2.2 := by
  unfold calculateMSTCost
  rw [if_neg h]
  dsimp only
  have hfun : (fun (st : List Nat × List (Cost F) × Cost F) (_count : Nat) =>
      match primSelect st.1 st.2.1 nodes.length with
      | none => st
      | some u =>
        (u :: st.1, primUpdate m nodes (u :: st.1) st.2.1 u nodes.length,
          st.2.2 + st.2.1.getD u 0)) =
      (fun st _ => primStepFn m nodes nodes.length st) := by
    funext st cnt
    rfl
  rw [hfun, foldl_const_eq_iterate, List.length_range]

/-- Accumulator invariant of the selection scan. -/
def selGood (visited : List Nat) (key : List (Cost F)) (processed : List Nat) :
    Option Nat → Prop
  | none => ∀ v ∈ processed, v ∈ visited
  | some u => u ∉ visited ∧ u ∈ processed ∧
      ∀ v ∈ processed, v ∉ visited → key.getD u 0 ≤ key.getD v 0

theorem primSelect_fold (visited : List Nat) (key : List (Cost F)) :
    ∀ (P processed : List Nat) (acc : Option Nat), selGood visited key processed acc →
      selGood visited key (processed ++ P)
        (P.foldl
          (fun u v =>
            if v ∈ visited then u
            else
              match u with
              | none => some v
              | some u0 => if key.getD v 0 < key.getD u0 0 then some v else u)
          acc) := by
  intro P
  induction P with
  | nil => intro processed acc h; simpa using h
  | cons x P ih =>
    intro processed acc h
    rw [List.foldl_cons, show processed ++ x :: P = (processed ++ [x]) ++ P by simp]
    apply ih
    by_cases hx : x ∈ visited
    · rw [if_pos hx]
      cases acc with
      | none =>
        intro v hv
        rcases List.mem_append.mp hv with hv | hv
        · exact h v hv
        · rw [List.mem_singleton.mp hv]
          exact hx
      | some u =>
        obtain ⟨h1, h2, h3⟩ := h
        refine ⟨h1, List.mem_append_left _ h2, fun v hv hnv => ?_⟩
        rcases List.mem_append.mp hv with hv | hv
        · exact h3 v hv hnv
        · rw [List.mem_singleton.mp hv] at hnv
          exact absurd hx hnv
    · rw [if_neg hx]
      cases acc with
      | none =>
        refine ⟨hx, List.mem_append_right _ (List.mem_singleton_self x), fun v hv hnv => ?_⟩
        rcases List.mem_append.mp hv with hv | hv
        · exact absurd (h v hv) hnv
        · rw [List.mem_singleton.mp hv]
      | some u =>
        obtain ⟨h1, h2, h3⟩ := h
        dsimp only
        by_cases hlt : key.getD x 0 < key.getD u 0
        · rw [if_pos hlt]
          refine ⟨hx, List.mem_append_right _ (List.mem_singleton_self x), fun v hv hnv => ?_⟩
          rcases List.mem_append.mp hv with hv | hv
          · exact le_trans (le_of_lt hlt) (h3 v hv hnv)
          · rw [List.mem_singleton.mp hv]
        · rw [if_neg hlt]
          refine ⟨h1, List.mem_append_left _ h2, fun v hv hnv => ?_⟩
          rcases List.mem_append.mp hv with hv | hv
          · exact h3 v hv hnv
          · rw [List.mem_singleton.mp hv]
            exact le_of_not_lt hlt

theorem primSelect_spec (visited : List Nat) (key : List (Cost F)) (k : Nat)
    (hex : ∃ v, v < k ∧ v ∉ visited) :
    ∃ u, primSelect visited key k = some u ∧ u < k ∧ u ∉ visited ∧
      ∀ v, v < k → v ∉ visited → key.getD u 0 ≤ key.getD v 0 := by
  have h := primSelect_fold visited key (List.range k) [] none (by intro v hv; simp at hv)
  rw [List.nil_append] at h
  unfold primSelect
  rcases hres : (List.range k).foldl
      (fun u v =>
        if v ∈ visited then u
        else
          match u with
          | none => some v
          | some u0 => if key.getD v 0 < key.getD u0 0 then some v else u)
      none with _ | u
  · rw [hres] at h
    obtain ⟨v, hv, hnv⟩ := hex
    exact absurd (h v (List.mem_range.mpr hv)) hnv
  · rw [hres] at h
    obtain ⟨h1, h2, h3⟩ := h
    exact ⟨u, hres, List.mem_range.mp h2, h1,
      fun v hv hnv => h3 v (List.mem_range.mpr hv) hnv⟩

theorem primSelect_none (visited : List Nat) (key : List (Cost F)) (k : Nat)
    (hall : ∀ v, v < k → v ∈ visited) : primSelect visited key k = none := by
  have h := primSelect_fold visited key (List.range k) [] none (by intro v hv; simp at hv)
  rw [List.nil_append] at h
  unfold primSelect
  rcases hres : (List.range k).foldl
      (fun u v =>
        if v ∈ visited then u
        else
          match u with
          | none => some v
          | some u0 => if key.getD v 0 < key.getD u0 0 then some v else u)
      none with _ | u
  · exact hres
  · rw [hres] at h
    exact absurd (hall u (List.mem_range.mp h.2.1)) h.1

theorem primUpdate_fold (m : List (List (Cost F))) (nodes : List Nat) (visited : List Nat)
    (u : Nat) :
    ∀ (P : List Nat) (key : List (Cost F)),
      (P.foldl
        (fun key v =>
          if v ∈ visited then key
          else
            let weight := matrixGet m (nodes.getD u 0) (nodes.getD v 0)
            if weight < key.getD v 0 then key.set v weight else key)
        key).length = key.length ∧
      ∀ v : Nat,
        (P.foldl
          (fun key v =>
            if v ∈ visited then key
            else
              let weight := matrixGet m (nodes.getD u 0) (nodes.getD v 0)
              if weight < key.getD v 0 then key.set v weight else key)
          key).getD v 0 =
          if v ∈ P ∧ v ∉ visited ∧ v < key.length then
            min (key.getD v 0) (matrixGet m (nodes.getD u 0) (nodes.getD v 0))
          else key.getD v 0 := by
  intro P
  induction P with
  | nil =>
    intro key
    refine ⟨rfl, fun v => ?_⟩
    simp
  | cons x P ih =>
    intro key
    rw [List.foldl_cons]
    by_cases hx : x ∈ visited
    · rw [if_pos hx]
      obtain ⟨ihl, ihv⟩ := ih key
      refine ⟨ihl, fun v => ?_⟩
      rw [ihv v]
      by_cases hmem : v ∈ P ∧ v ∉ visited ∧ v < key.length
      · rw [if_pos hmem, if_pos ⟨List.mem_cons_of_mem _ hmem.1, hmem.2⟩]
      · rw [if_neg hmem]
        by_cases hmem2 : v ∈ x :: P ∧ v ∉ visited ∧ v < key.length
        · exfalso
          rcases List.mem_cons.mp hmem2.1 with rfl | hv
          · exact hmem2.2.1 hx
          · exact hmem ⟨hv, hmem2.2⟩
        · rw [if_neg hmem2]
    · rw [if_neg hx]
      dsimp only
      by_cases hlt : matrixGet m (nodes.getD u 0) (nodes.getD x 0) < key.getD x 0
      · rw [if_pos hlt]
        obtain ⟨ihl, ihv⟩ := ih (key.set x (matrixGet m (nodes.getD u 0) (nodes.getD x 0)))
        refine ⟨by rw [ihl, List.length_set], fun v => ?_⟩
        rw [ihv v, List.length_set]
        by_cases hvx : v = x
        · subst hvx
          by_cases hvk : v < key.length
          · have hset : (key.set v (matrixGet m (nodes.getD u 0) (nodes.getD v 0))).getD v 0 =
                matrixGet m (nodes.getD u 0) (nodes.getD v 0) := by
              rw [List.getD_eq_getElem _ _ (by rw [List.length_set]; exact hvk)]
              simp
            by_cases hmem : v ∈ P ∧ v ∉ visited ∧ v < key.length
            · rw [if_pos hmem, if_pos ⟨List.mem_cons_self _ _, hmem.2⟩, hset]
              rw [min_self, min_eq_right (le_of_lt hlt)]
            · rw [if_neg hmem, if_pos ⟨List.mem_cons_self _ _, hx, hvk⟩, hset]
              rw [min_eq_right (le_of_lt hlt)]
          · have hset : (key.set v (matrixGet m (nodes.getD u 0) (nodes.getD v 0))).getD v 0 =
                key.getD v 0 := by
              rw [List.getD_eq_default _ _ (by rw [List.length_set]; omega),
                List.getD_eq_default _ _ (by omega)]
            rw [if_neg (by intro h; exact absurd h.2.2 hvk),
              if_neg (by intro h; exact absurd h.2.2 hvk), hset]
        · have hset : (key.set x (matrixGet m (nodes.getD u 0) (nodes.getD x 0))).getD v 0 =
              key.getD v 0 := by
            rcases Nat.lt_or_ge v key.length with hvk | hvk
            · rw [List.getD_eq_getElem _ _ (by rw [List.length_set]; exact hvk),
                List.getD_eq_getElem _ _ hvk]
              rw [List.getElem_set_ne (by omega)]
            · rw [List.getD_eq_default _ _ (by rw [List.length_set]; omega),
                List.getD_eq_default _ _ (by omega)]
          by_cases hmem : v ∈ P ∧ v ∉ visited ∧ v < key.length
          · rw [if_pos hmem, if_pos ⟨List.mem_cons_of_mem _ hmem.1, hmem.2⟩, hset]
          · rw [if_neg hmem, if_neg ?_, hset]
            intro h
            rcases List.mem_cons.mp h.1 with rfl | hv
            · exact hvx rfl
            · exact hmem ⟨hv, h.2⟩
      · rw [if_neg hlt]
        obtain ⟨ihl, ihv⟩ := ih key
        refine ⟨ihl, fun v => ?_⟩
        rw [ihv v]
        by_cases hvx : v = x
        · subst hvx
          by_cases hmem : v ∈ P ∧ v ∉ visited ∧ v < key.length
          · rw [if_pos hmem, if_pos ⟨List.mem_cons_self _ _, hmem.2⟩]
          · by_cases hvk : v < key.length
            · rw [if_neg hmem, if_pos ⟨List.mem_cons_self _ _, hx, hvk⟩]
              rw [min_eq_left (le_of_not_lt hlt)]
            · rw [if_neg hmem, if_neg (by intro h; exact absurd h.2.2 hvk)]
        · by_cases hmem : v ∈ P ∧ v ∉ visited ∧ v < key.length
          · rw [if_pos hmem, if_pos ⟨List.mem_cons_of_mem _ hmem.1, hmem.2⟩]
          · rw [if_neg hmem, if_neg ?_]
            intro h
            rcases List.mem_cons.mp h.1 with rfl | hv
            · exact hvx rfl
            · exact hmem ⟨hv, h.2⟩

theorem primUpdate_spec (m : List (List (Cost F))) (nodes : List Nat) (visited : List Nat)
    (key : List (Cost F)) (u : Nat) (k : Nat) (hk : key.length = k) :
    (primUpdate m nodes visited key u k).length = k ∧
    ∀ v : Nat, v < k →
      (primUpdate m nodes visited key u k).getD v 0 =
        if v ∈ visited then key.getD v 0
        else min (key.getD v 0) (matrixGet m (nodes.getD u 0) (nodes.getD v 0)) := by
  obtain ⟨hl, hv⟩ := primUpdate_fold m nodes visited u (List.range k) key
  constructor
  · unfold primUpdate
    rw [hl, hk]
  · intro v hvk
    unfold primUpdate
    rw [hv v]
    by_cases hvis : v ∈ visited
    · rw [if_neg (by intro h; exact absurd hvis h.2.1), if_pos hvis]
    · rw [if_pos ⟨List.mem_range.mpr hvk, hvis, by omega⟩, if_neg hvis]

theorem cutKeyPos_cons (m : List (List (Cost F))) (nodes : List Nat) (s : Nat) (S : List Nat)
    (v : Nat) :
    cutKeyPos m nodes (s :: S) v =
      min (matrixGet m (nodes.getD s 0) (nodes.getD v 0)) (cutKeyPos m nodes S v) := rfl

theorem cutKeyPos_le_mem (m : List (List (Cost F))) (nodes : List Nat) (v : Nat) :
    ∀ (S : List Nat), ∀ p ∈ S,
      cutKeyPos m nodes S v ≤ matrixGet m (nodes.getD p 0) (nodes.getD v 0) := by
  intro S
  induction S with
  | nil => intro p hp; simp at hp
  | cons s S ih =>
    intro p hp
    rw [cutKeyPos_cons]
    rcases List.mem_cons.mp hp with rfl | hp
    · exact min_le_left _ _
    · exact le_trans (min_le_right _ _) (ih p hp)

/-- The loop invariant of Prim's algorithm: the visited positions are
distinct and in range, every unvisited key equals the cut minimum to it, and
the accumulated cost is a sum of increments each bounded by every edge
crossing its cut. -/
def PrimInvariant (m : List (List (Cost F))) (nodes : List Nat) (k : Nat)
    (st : List Nat × List (Cost F) × Cost F) : Prop :=
  st.1.Nodup ∧ (∀ p ∈ st.1, p < k) ∧ 1 ≤ st.1.length ∧ st.2.1.length = k ∧
  (∀ v, v < k → v ∉ st.1 → st.2.1.getD v 0 = cutKeyPos m nodes st.1 v) ∧
  ∃ incs : List (Cost F), incs.length + 1 = st.1.length ∧ st.2.2 = incs.sum ∧
    ∀ t, t < incs.length → ∀ p ∈ st.1.reverse.take (t + 1), ∀ v, v < k →
      v ∉ st.1.reverse.take (t + 1) →
      incs.getD t 0 ≤ matrixGet m (nodes.getD p 0) (nodes.getD v 0)

theorem prim_base (m : List (List (Cost F))) (nodes : List Nat) (k : Nat) (hk : 1 ≤ k) :
    PrimInvariant m nodes k
      (primStepFn m nodes k (([] : List Nat), (List.replicate k (⊤ : Cost F)).set 0 0, 0)) ∧
    (primStepFn m nodes k (([] : List Nat), (List.replicate k (⊤ : Cost F)).set 0 0, 0)).1.length
      = 1 := by
  have hklen : ((List.replicate k (⊤ : Cost F)).set 0 0).length = k := by simp
  have hget0 : ((List.replicate k (⊤ : Cost F)).set 0 0).getD 0 0 = 0 := by
    rw [List.getD_eq_getElem _ _ (by simpa using hk)]
    simp
  have hgetv : ∀ v, v < k → v ≠ 0 →
      ((List.replicate k (⊤ : Cost F)).set 0 0).getD v 0 = ⊤ := by
    intro v hv hv0
    rw [List.getD_eq_getElem _ _ (by simpa using hv)]
    rw [List.getElem_set_ne (by omega)]
    simp
  set key0 : List (Cost F) := (List.replicate k (⊤ : Cost F)).set 0 0 with hkey0
  obtain ⟨u, hsel, hu, _, hmin⟩ := primSelect_spec ([] : List Nat) key0 k
    ⟨0, hk, by simp⟩
  have hu0 : u = 0 := by
    by_contra hne
    have := hmin 0 hk (by simp)
    rw [hget0, hgetv u hu hne] at this
    rw [WithTop.top_le_iff] at this
    exact (by simp : ((0 : Cost F) ≠ ⊤)) this
  subst hu0
  have hstep : primStepFn m nodes k (([] : List Nat), key0, 0) =
      ([0], primUpdate m nodes [0] key0 0 k, 0 + key0.getD 0 0) := by
    unfold primStepFn
    rw [hsel]
  rw [hstep]
  obtain ⟨hulen, huget⟩ := primUpdate_spec m nodes [0] key0 0 k hklen
  refine ⟨⟨by simp, by simpa using hk, by simp, hulen, ?_, [], by simp, ?_, ?_⟩, by simp⟩
  · intro v hv hnv
    have hv0 : v ≠ 0 := by simpa using hnv
    rw [huget v hv, if_neg (by simpa using hv0), hgetv v hv hv0]
    rw [min_top_left]
    unfold cutKeyPos
    rw [List.foldr_cons, List.foldr_nil, min_eq_left le_top]
  · rw [hget0]
    simp
  · intro t ht
    simp at ht

theorem length_le_of_nodup_lt (k : Nat) (L : List Nat) (hnd : L.Nodup)
    (hmem : ∀ p ∈ L, p < k) : L.length ≤ k := by
  have hsub : L ⊆ List.range k := fun p hp => List.mem_range.mpr (hmem p hp)
  simpa using (hnd.subperm hsub).length_le

theorem exists_unvisited (k : Nat) (L : List Nat) (hnd : L.Nodup)
    (hmem : ∀ p ∈ L, p < k) (hlt : L.length < k) : ∃ v, v < k ∧ v ∉ L := by
  by_contra hall
  push_neg at hall
  have hsub : List.range k ⊆ L := by
    intro v hv
    exact hall v (List.mem_range.mp hv)
  have := ((List.nodup_range k).subperm hsub).length_le
  simp at this
  omega

theorem mem_of_nodup_length_eq (k : Nat) (L : List Nat) (hnd : L.Nodup)
    (hmem : ∀ p ∈ L, p < k) (hlen : L.length = k) : ∀ v, v < k → v ∈ L := by
  have hsub : L ⊆ List.range k := fun p hp => List.mem_range.mpr (hmem p hp)
  have hperm : L.Perm (List.range k) :=
    (hnd.subperm hsub).perm_of_length_le (by simp [hlen])
  intro v hv
  exact hperm.mem_iff.mpr (List.mem_range.mpr hv)

theorem prim_step_inv (m : List (List (Cost F))) (nodes : List Nat) (k : Nat)
    (st : List Nat × List (Cost F) × Cost F) (hinv : PrimInvariant m nodes k st)
    (hlt : st.1.length < k) :
    PrimInvariant m nodes k (primStepFn m nodes k st) ∧
      (primStepFn m nodes k st).1.length = st.1.length + 1 := by
  obtain ⟨hnd, hmem, hlen1, hklen, hkeys, incs, hilen, hcost, hcut⟩ := hinv
  obtain ⟨u, hsel, hu, hunv, hmin⟩ := primSelect_spec st.1 st.2.1 k
    (exists_unvisited k st.1 hnd hmem hlt)
  have hstep : primStepFn m nodes k st =
      (u :: st.1, primUpdate m nodes (u :: st.1) st.2.1 u k, st.2.2 + st.2.1.getD u 0) := by
    unfold primStepFn
    rw [hsel]
  rw [hstep]
  obtain ⟨hulen, huget⟩ := primUpdate_spec m nodes (u :: st.1) st.2.1 u k hklen
  refine ⟨⟨List.nodup_cons.mpr ⟨hunv, hnd⟩, ?_, by simp, hulen, ?_, incs ++ [st.2.1.getD u 0],
    by simpa using hilen, ?_, ?_⟩, by simp⟩
  · intro p hp
    rcases List.mem_cons.mp hp with rfl | hp
    · exact hu
    · exact hmem p hp
  · intro v hv hnv
    have hvne : v ∉ st.1 := fun h => hnv (List.mem_cons_of_mem _ h)
    rw [huget v hv, if_neg hnv, hkeys v hv hvne, cutKeyPos_cons, min_comm]
  · rw [List.sum_append, hcost]
    simp
  · have hrev : (u :: st.1).reverse = st.1.reverse ++ [u] := by simp
    have hrevlen : st.1.reverse.length = st.1.length := by simp
    intro t ht
    simp only [List.length_append, List.length_cons] at ht
    rcases Nat.lt_or_ge t incs.length with htlt | htge
    · intro p hp v hv hnv
      rw [hrev, List.take_append_of_le_length (by omega)] at hp hnv
      rw [List.getD_append _ _ _ _ htlt]
      exact hcut t htlt p hp v hv hnv
    · have hteq : t = incs.length := by
        simp at ht
        omega
      subst hteq
      intro p hp v hv hnv
      rw [hrev, show incs.length + 1 = st.1.reverse.length by omega] at hp hnv
      rw [List.take_append_of_le_length (le_refl _), List.take_length] at hp hnv
      rw [List.getD_append_right _ _ _ _ (le_refl _)]
      simp only [Nat.sub_self, List.getD]
      have hp1 : p ∈ st.1 := List.mem_reverse.mp hp
      have hv1 : v ∉ st.1 := fun h => hnv (List.mem_reverse.mpr h)
      calc st.2.1.getD u 0 ≤ st.2.1.getD v 0 := hmin v hv hv1
        _ = cutKeyPos m nodes st.1 v := hkeys v hv hv1
        _ ≤ matrixGet m (nodes.getD p 0) (nodes.getD v 0) := cutKeyPos_le_mem m nodes v st.1 p hp1

theorem prim_stuck (m : List (List (Cost F))) (nodes : List Nat) (k : Nat)
    (st : List Nat × List (Cost F) × Cost F)
    (hall : ∀ v, v < k → v ∈ st.1) : primStepFn m nodes k st = st := by
  unfold primStepFn
  rw [primSelect_none st.1 st.2.1 k hall]

theorem prim_iterate_inv (m : List (List (Cost F))) (nodes : List Nat) (k : Nat) :
    ∀ (j : Nat) (st : List Nat × List (Cost F) × Cost F), PrimInvariant m nodes k st →
      PrimInvariant m nodes k ((primStepFn m nodes k)^[j] st) ∧
        ((primStepFn m nodes k)^[j] st).1.length = min (st.1.length + j) k := by
  intro j
  induction j with
  | zero =>
    intro st hinv
    refine ⟨hinv, ?_⟩
    obtain ⟨hnd, hmem, _, _⟩ := hinv
    have := length_le_of_nodup_lt k st.1 hnd hmem
    simp
    omega
  | succ j ih =>
    intro st hinv
    have hnd := hinv.1
    have hmem := hinv.2.1
    have hle := length_le_of_nodup_lt k st.1 hnd hmem
    rw [Function.iterate_succ_apply]
    rcases Nat.lt_or_ge st.1.length k with hlt | hge
    · obtain ⟨hinv2, hlen2⟩ := prim_step_inv m nodes k st hinv hlt
      obtain ⟨hinv3, hlen3⟩ := ih _ hinv2
      refine ⟨hinv3, ?_⟩
      rw [hlen3, hlen2]
      omega
    · have heq : st.1.length = k := le_antisymm hle hge
      have hstuck : primStepFn m nodes k st = st :=
        prim_stuck m nodes k st (mem_of_nodup_length_eq k st.1 hnd hmem heq)
      rw [hstuck]
      obtain ⟨hinv3, hlen3⟩ := ih st hinv
      refine ⟨hinv3, ?_⟩
      rw [hlen3]
      omega

theorem iterate_pred_succ {α : Type} (f : α → α) (n : Nat) (hn : 1 ≤ n) (x : α) :
    f^[n] x = f^[n - 1] (f x) := by
  conv_lhs => rw [show n = (n - 1) + 1 from by omega]
  exact Function.iterate_succ_apply _ _ _

/-- Every run of `calculateMSTCost` on at least two nodes yields an
attachment order `vs` (a permutation of the positions) and a list of
increments summing to the returned cost, where each increment is bounded by
the weight of every edge crossing its cut. -/
theorem prim_run (m : List (List (Cost F))) (nodes : List Nat) (hk : 2 ≤ nodes.length) :
    ∃ (vs : List Nat) (incs : List (Cost F)),
      vs.Perm (List.range nodes.length) ∧ incs.length + 1 = nodes.length ∧
      calculateMSTCost m nodes = incs.sum ∧
      ∀ t, t < incs.length → ∀ p ∈ vs.take (t + 1), ∀ v, v < nodes.length →
        v ∉ vs.take (t + 1) →
        incs.getD t 0 ≤ matrixGet m (nodes.getD p 0) (nodes.getD v 0) := by
  have hk1 : ¬ nodes.length ≤ 1 := by omega
  have hmst := calculateMSTCost_eq_iterate m nodes hk1
  obtain ⟨hinv1, hlen1⟩ := prim_base m nodes nodes.length (by omega)
  obtain ⟨hinvF, hlenF⟩ := prim_iterate_inv m nodes nodes.length (nodes.length - 1) _ hinv1
  have hlenF2 : ((primStepFn m nodes nodes.length)^[nodes.length - 1]
      (primStepFn m nodes nodes.length
        (([] : List Nat), (List.replicate nodes.length (⊤ : Cost F)).set 0 0, 0))).1.length =
      nodes.length := by
    rw [hlenF, hlen1]
    omega
  have hiterEq := iterate_pred_succ (primStepFn m nodes nodes.length) nodes.length (by omega)
    (([] : List Nat), (List.replicate nodes.length (⊤ : Cost F)).set 0 0, 0)
  rw [hiterEq] at hmst
  set stF := (primStepFn m nodes nodes.length)^[nodes.length - 1]
    (primStepFn m nodes nodes.length
      (([] : List Nat), (List.replicate nodes.length (⊤ : Cost F)).set 0 0, 0)) with hstF
  obtain ⟨hnd, hmem, -, -, -, incs, hilen, hcost, hcut⟩ := hinvF
  refine ⟨stF.1.reverse, incs, ?_, ?_, ?_, ?_⟩
  · have hrnd : stF.1.reverse.Nodup := by simpa using hnd
    have hrsub : stF.1.reverse ⊆ List.range nodes.length := by
      intro p hp
      exact List.mem_range.mpr (hmem p (List.mem_reverse.mp hp))
    refine (hrnd.subperm hrsub).perm_of_length_le ?_
    simp [hlenF2]
  · rw [hilen]
    exact hlenF2
  · rw [hmst, hcost]
  · exact hcut

/-! ### The cut increments are below any Hamiltonian path (Hall's theorem) -/

theorem list_sum_eq_sum_range {M : Type} [AddCommMonoid M] :
    ∀ L : List M, L.sum = ∑ t ∈ Finset.range L.length, L.getD t 0 := by
  intro L
  induction L with
  | nil => simp
  | cons a L ih =>
    rw [List.sum_cons, ih, List.length_cons, Finset.sum_range_succ']
    simp
    exact add_comm _ _

theorem zip_tail_ne (σ : List Nat) (hnd : σ.Nodup) :
    ∀ e ∈ σ.zip σ.tail, e.1 ≠ e.2 := by
  induction σ with
  | nil => intro e he; simp at he
  | cons a rest ih =>
    intro e he
    cases rest with
    | nil => simp at he
    | cons b rest2 =>
      simp only [List.tail_cons, List.zip_cons_cons, List.mem_cons] at he
      rcases he with rfl | he
      · have hnb : a ∉ b :: rest2 := (List.nodup_cons.mp hnd).1
        intro hab
        simp only at hab
        subst hab
        exact hnb (List.mem_cons_self _ _)
      · exact ih (List.nodup_cons.mp hnd).2 e he

theorem zip_tail_nodup (σ : List Nat) (hnd : σ.Nodup) : (σ.zip σ.tail).Nodup := by
  induction σ with
  | nil => simp
  | cons a rest ih =>
    cases rest with
    | nil => simp
    | cons b rest2 =>
      simp only [List.tail_cons, List.zip_cons_cons]
      refine List.nodup_cons.mpr ⟨?_, ih (List.nodup_cons.mp hnd).2⟩
      intro hmem
      have h1 := (List.of_mem_zip hmem).1
      exact (List.nodup_cons.mp hnd).1 h1

theorem nodup_getD_mem_take (l : List Nat) (hnd : l.Nodup) (x T : Nat) (hx : x < l.length) :
    l.getD x 0 ∈ l.take T ↔ x < T := by
  rw [List.getD_eq_getElem _ _ hx]
  constructor
  · intro h
    obtain ⟨j, hj, hval⟩ := List.getElem_of_mem h
    rw [List.getElem_take] at hval
    have hjlen : j < l.length := by
      rw [List.length_take] at hj
      omega
    have : j = x := by
      have := (hnd.getElem_inj_iff).mp hval
      exact this
    rw [List.length_take] at hj
    omega
  · intro h
    have hxt : x < (l.take T).length := by
      rw [List.length_take]
      omega
    have : (l.take T)[x] = l[x] := List.getElem_take l
    rw [← this]
    exact List.getElem_mem hxt

theorem card_le_diff_pairs {γ δ : Type} [DecidableEq δ] (f : γ → δ) :
    ∀ L : List γ, L ≠ [] →
      ((L.map f).toFinset).card ≤
        ((L.zip L.tail).filter (fun e => decide (f e.1 ≠ f e.2))).length + 1 := by
  intro L
  induction L with
  | nil => intro h; exact absurd rfl h
  | cons a rest ih =>
    intro _
    cases rest with
    | nil => simp
    | cons b rest2 =>
      simp only [List.tail_cons]
      rw [List.map_cons, List.toFinset_cons, List.zip_cons_cons]
      by_cases hab : f a = f b
      · have hmem : f a ∈ (List.map f (b :: rest2)).toFinset := by
          rw [List.mem_toFinset, List.map_cons, hab]
          exact List.mem_cons_self _ _
        rw [Finset.insert_eq_self.mpr hmem]
        refine le_trans (ih (by simp)) ?_
        rw [List.filter_cons]
        split
        · simp
        · simp
      · refine le_trans (Finset.card_insert_le _ _) ?_
        rw [List.filter_cons, if_pos (by simpa using hab), List.length_cons]
        have hih := ih (by simp)
        simp only [List.tail_cons] at hih
        omega

theorem filter_lt_card_hits (kk : Nat) (s : Finset (Fin kk)) :
    ∀ j, j ≤ s.card → ∃ x, x ≤ kk ∧ (s.filter (fun step : Fin kk => (step : Nat) < x)).card = j := by
  have hg0 : (s.filter (fun step : Fin kk => (step : Nat) < 0)).card = 0 := by simp
  have hgK : (s.filter (fun step : Fin kk => (step : Nat) < kk)).card = s.card := by
    rw [Finset.filter_true_of_mem (fun t _ => t.isLt)]
  have hstepup : ∀ x, (s.filter (fun step : Fin kk => (step : Nat) < x + 1)).card ≤
      (s.filter (fun step : Fin kk => (step : Nat) < x)).card + 1 := by
    intro x
    have hsplit : s.filter (fun step : Fin kk => (step : Nat) < x + 1) =
        s.filter (fun step : Fin kk => (step : Nat) < x) ∪ s.filter (fun step : Fin kk => (step : Nat) = x) := by
      rw [← Finset.filter_or]
      exact Finset.filter_congr (fun t _ => by omega)
    rw [hsplit]
    refine le_trans (Finset.card_union_le _ _) ?_
    have hone : (s.filter (fun step : Fin kk => (step : Nat) = x)).card ≤ 1 := by
      rw [Finset.card_le_one]
      intro a ha b hb
      rw [Finset.mem_filter] at ha hb
      exact Fin.ext (by omega)
    omega
  have hstepmono : ∀ x, (s.filter (fun step : Fin kk => (step : Nat) < x)).card ≤
      (s.filter (fun step : Fin kk => (step : Nat) < x + 1)).card := by
    intro x
    exact Finset.card_le_card (Finset.monotone_filter_right s (fun t ht => by omega))
  intro j
  induction j with
  | zero => intro _; exact ⟨0, Nat.zero_le _, hg0⟩
  | succ j ihj =>
    intro hj
    obtain ⟨x, hxle, hgx⟩ := ihj (by omega)
    have climb : ∀ d x, x + d = kk → (s.filter (fun step : Fin kk => (step : Nat) < x)).card = j →
        ∃ y, y ≤ kk ∧ (s.filter (fun step : Fin kk => (step : Nat) < y)).card = j + 1 := by
      intro d
      induction d with
      | zero =>
        intro x hx hgx2
        exfalso
        have hxkk : x = kk := by omega
        rw [hxkk, hgK] at hgx2
        omega
      | succ d ihd =>
        intro x hx hgx2
        rcases Nat.lt_or_ge ((s.filter (fun step : Fin kk => (step : Nat) < x + 1)).card) (j + 1) with
          hlt | hge
        · have heq : (s.filter (fun step : Fin kk => (step : Nat) < x + 1)).card = j := by
            have := hstepmono x
            omega
          exact ihd (x + 1) (by omega) heq
        · refine ⟨x + 1, by omega, ?_⟩
          have := hstepup x
          omega
    rcases Nat.lt_or_ge x kk with hxlt | hxge
    · exact climb (kk - x) x (by omega) hgx
    · exfalso
      have hxkk : x = kk := by omega
      rw [hxkk, hgK] at hgx
      omega

/-- The number of selected cut steps that have not yet absorbed `v`. -/
def blockIdx (vs : List Nat) (kk : Nat) (s : Finset (Fin kk)) (v : Nat) : Nat :=
  (s.filter (fun step : Fin kk => v ∉ vs.take ((step : Nat) + 1))).card

theorem blockIdx_getD (vs : List Nat) (kk : Nat) (s : Finset (Fin kk)) (hvnd : vs.Nodup)
    (x : Nat) (hx : x < vs.length) :
    blockIdx vs kk s (vs.getD x 0) = (s.filter (fun step : Fin kk => (step : Nat) < x)).card := by
  unfold blockIdx
  refine congrArg Finset.card (Finset.filter_congr (fun step _ => ?_))
  rw [nodup_getD_mem_take vs hvnd x ((step : Nat) + 1) hx]
  omega

theorem blockIdx_crossing (vs : List Nat) (kk : Nat) (s : Finset (Fin kk)) (e : Nat × Nat)
    (hne : blockIdx vs kk s e.1 ≠ blockIdx vs kk s e.2) :
    ∃ step ∈ s, ¬ (e.1 ∈ vs.take ((step : Nat) + 1) ↔ e.2 ∈ vs.take ((step : Nat) + 1)) := by
  by_contra h
  push_neg at h
  apply hne
  unfold blockIdx
  refine congrArg Finset.card (Finset.filter_congr (fun step hstep => ?_))
  rw [not_iff_not]
  exact h step hstep

theorem hall_condition (k kk : Nat) (hkk : kk + 1 = k) (vs σ : List Nat)
    (hvnd : vs.Nodup) (hvlen : vs.length = k) (hvmem : ∀ v ∈ vs, v < k)
    (hσnd : σ.Nodup) (hσlen : σ.length = k) (hσmem : ∀ v, v < k → v ∈ σ)
    (s : Finset (Fin kk)) :
    s.card ≤ (s.biUnion (fun step =>
      ((σ.zip σ.tail).filter (fun e =>
        decide (¬ (e.1 ∈ vs.take ((step : Nat) + 1) ↔
          e.2 ∈ vs.take ((step : Nat) + 1))))).toFinset)).card := by
  have hattain : ∀ j, j ≤ s.card → ∃ v ∈ σ, blockIdx vs kk s v = j := by
    intro j hj
    obtain ⟨x, hxle, hgx⟩ := filter_lt_card_hits kk s j hj
    have hxlt : x < vs.length := by omega
    refine ⟨vs.getD x 0, ?_, ?_⟩
    · refine hσmem _ ?_
      refine hvmem _ ?_
      rw [List.getD_eq_getElem _ _ hxlt]
      exact List.getElem_mem hxlt
    · rw [blockIdx_getD vs kk s hvnd x hxlt, hgx]
  have hrange : Finset.range (s.card + 1) ⊆ (σ.map (blockIdx vs kk s)).toFinset := by
    intro j hj
    rw [Finset.mem_range] at hj
    obtain ⟨v, hvσ, hbv⟩ := hattain j (by omega)
    rw [List.mem_toFinset, List.mem_map]
    exact ⟨v, hvσ, hbv⟩
  have h1 : s.card + 1 ≤ ((σ.map (blockIdx vs kk s)).toFinset).card := by
    simpa using Finset.card_le_card hrange
  have hσne : σ ≠ [] := by
    intro h
    rw [h] at hσlen
    simp at hσlen
    omega
  have h2 := card_le_diff_pairs (blockIdx vs kk s) σ hσne
  have hDPnd : ((σ.zip σ.tail).filter
      (fun e => decide (blockIdx vs kk s e.1 ≠ blockIdx vs kk s e.2))).Nodup :=
    (zip_tail_nodup σ hσnd).filter _
  have hDPsub : ((σ.zip σ.tail).filter
      (fun e => decide (blockIdx vs kk s e.1 ≠ blockIdx vs kk s e.2))).toFinset ⊆
      s.biUnion (fun step =>
        ((σ.zip σ.tail).filter (fun e =>
          decide (¬ (e.1 ∈ vs.take ((step : Nat) + 1) ↔
            e.2 ∈ vs.take ((step : Nat) + 1))))).toFinset) := by
    intro e he
    rw [List.mem_toFinset, List.mem_filter] at he
    obtain ⟨hezip, hediff⟩ := he
    have hediff2 : blockIdx vs kk s e.1 ≠ blockIdx vs kk s e.2 := by simpa using hediff
    obtain ⟨step, hstep, hcross⟩ := blockIdx_crossing vs kk s e hediff2
    rw [Finset.mem_biUnion]
    refine ⟨step, hstep, ?_⟩
    rw [List.mem_toFinset, List.mem_filter]
    exact ⟨hezip, by simpa using hcross⟩
  have h3 : ((σ.zip σ.tail).filter
      (fun e => decide (blockIdx vs kk s e.1 ≠ blockIdx vs kk s e.2))).length ≤
      (s.biUnion (fun step =>
        ((σ.zip σ.tail).filter (fun e =>
          decide (¬ (e.1 ∈ vs.take ((step : Nat) + 1) ↔
            e.2 ∈ vs.take ((step : Nat) + 1))))).toFinset)).card := by
    rw [← List.toFinset_card_of_nodup hDPnd]
    exact Finset.card_le_card hDPsub
  omega

set_option maxHeartbeats 1000000 in
/-- Core combinatorial inequality: cut-bounded increments sum to at most the
weight of any Hamiltonian path (with a symmetric, off-diagonal nonnegative
weight function). -/
theorem cut_incs_le_path (k : Nat) (W : Nat → Nat → Cost F)
    (hsym : ∀ p q, p < k → q < k → W p q = W q p)
    (hnn : ∀ p q, p < k → q < k → p ≠ q → 0 ≤ W p q)
    (vs : List Nat) (hvs : vs.Perm (List.range k))
    (incs : List (Cost F)) (hlen : incs.length + 1 = k)
    (hcut : ∀ t, t < incs.length → ∀ p ∈ vs.take (t + 1), ∀ v, v < k →
      v ∉ vs.take (t + 1) → incs.getD t 0 ≤ W p v)
    (σ : List Nat) (hσ : σ.Perm (List.range k)) :
    incs.sum ≤ ((σ.zip σ.tail).map (fun e => W e.1 e.2)).sum := by
  have hvnd : vs.Nodup := hvs.nodup_iff.mpr (List.nodup_range k)
  have hσnd : σ.Nodup := hσ.nodup_iff.mpr (List.nodup_range k)
  have hvlen : vs.length = k := by simpa using hvs.length_eq
  have hσlen : σ.length = k := by simpa using hσ.length_eq
  have hvmem : ∀ v ∈ vs, v < k := fun v hv => List.mem_range.mp (hvs.mem_iff.mp hv)
  have hσmemk : ∀ v ∈ σ, v < k := fun v hv => List.mem_range.mp (hσ.mem_iff.mp hv)
  have hσmem : ∀ v, v < k → v ∈ σ := fun v hv => hσ.mem_iff.mpr (List.mem_range.mpr hv)
  have hall := fun s => hall_condition k incs.length hlen vs σ hvnd hvlen hvmem hσnd hσlen
    hσmem s
  obtain ⟨f, hfinj, hfmem⟩ :=
    (Finset.all_card_le_biUnion_card_iff_exists_injective _).mp hall
  have hsum1 : incs.sum = ∑ x : Fin incs.length, incs.getD (x : Nat) 0 := by
    rw [list_sum_eq_sum_range incs, ← Fin.sum_univ_eq_sum_range]
  have hfacts : ∀ x : Fin incs.length, f x ∈ σ.zip σ.tail ∧
      ¬ ((f x).1 ∈ vs.take ((x : Nat) + 1) ↔ (f x).2 ∈ vs.take ((x : Nat) + 1)) := by
    intro x
    have hf := hfmem x
    rw [List.mem_toFinset, List.mem_filter] at hf
    exact ⟨hf.1, by simpa using hf.2⟩
  have hstep_le : ∀ x : Fin incs.length, incs.getD (x : Nat) 0 ≤ W (f x).1 (f x).2 := by
    intro x
    obtain ⟨hzip, hcross⟩ := hfacts x
    have hzip2 : ((f x).1, (f x).2) ∈ σ.zip σ.tail := by
      rw [Prod.mk.eta]
      exact hzip
    obtain ⟨h1, h2⟩ := List.of_mem_zip hzip2
    have h2σ : (f x).2 ∈ σ := List.mem_of_mem_tail h2
    have h1k : (f x).1 < k := hσmemk _ h1
    have h2k : (f x).2 < k := hσmemk _ h2σ
    by_cases hin : (f x).1 ∈ vs.take ((x : Nat) + 1)
    · have hnot : (f x).2 ∉ vs.take ((x : Nat) + 1) := by tauto
      exact hcut x x.isLt (f x).1 hin (f x).2 h2k hnot
    · have hin2 : (f x).2 ∈ vs.take ((x : Nat) + 1) := by tauto
      have := hcut x x.isLt (f x).2 hin2 (f x).1 h1k hin
      rw [hsym _ _ h2k h1k] at this
      exact this
  have hsub : Finset.image f Finset.univ ⊆ (σ.zip σ.tail).toFinset := by
    intro e he
    rw [Finset.mem_image] at he
    obtain ⟨x, -, rfl⟩ := he
    rw [List.mem_toFinset]
    exact (hfacts x).1
  have hnonneg : ∀ e ∈ (σ.zip σ.tail).toFinset, e ∉ Finset.image f Finset.univ →
      0 ≤ W e.1 e.2 := by
    intro e he _
    rw [List.mem_toFinset] at he
    have hne := zip_tail_ne σ hσnd e he
    have hzip2 : (e.1, e.2) ∈ σ.zip σ.tail := by
      rw [Prod.mk.eta]
      exact he
    obtain ⟨h1, h2⟩ := List.of_mem_zip hzip2
    exact hnn e.1 e.2 (hσmemk _ h1) (hσmemk _ (List.mem_of_mem_tail h2)) hne
  calc incs.sum = ∑ x : Fin incs.length, incs.getD (x : Nat) 0 := hsum1
    _ ≤ ∑ x : Fin incs.length, W (f x).1 (f x).2 :=
        Finset.sum_le_sum (fun x _ => hstep_le x)
    _ = ∑ e ∈ Finset.image f Finset.univ, W e.1 e.2 := by
        rw [Finset.sum_image (fun a _ b _ h => hfinj h)]
    _ ≤ ∑ e ∈ (σ.zip σ.tail).toFinset, W e.1 e.2 :=
        Finset.sum_le_sum_of_subset_of_nonneg hsub hnonneg
    _ = ((σ.zip σ.tail).map (fun e => W e.1 e.2)).sum :=
        List.sum_toFinset _ (zip_tail_nodup σ hσnd)

/-! ### Admissibility of the lower bound (claim C2) -/

theorem pathCost_eq_zip_sum (m : List (List (Cost F))) :
    ∀ L : List Nat, pathCost m L = ((L.zip L.tail).map (fun e => matrixGet m e.1 e.2)).sum
  | [] => by simp [pathCost]
  | [a] => by simp [pathCost]
  | a :: b :: rest => by
    rw [pathCost, pathCost_eq_zip_sum m (b :: rest)]
    simp [List.zip_cons_cons]

theorem foldl_min_le_init {β : Type} (f : β → Cost F) :
    ∀ (L : List β) (init : Cost F), L.foldl (fun acc v => min acc (f v)) init ≤ init
  | [], init => le_refl init
  | b :: t, init =>
    le_trans (foldl_min_le_init f t (min init (f b))) (min_le_left _ _)

theorem foldl_min_le_elem {β : Type} (f : β → Cost F) :
    ∀ (L : List β) (init : Cost F) (x : β), x ∈ L →
      L.foldl (fun acc v => min acc (f v)) init ≤ f x
  | b :: t, init, x, hx => by
    rcases List.mem_cons.mp hx with rfl | hxt
    · exact le_trans (foldl_min_le_init f t (min init (f x))) (min_le_right _ _)
    · exact foldl_min_le_elem f t (min init (f b)) x hxt

theorem le_foldl_min_aux {β : Type} (f : β → Cost F) (B : Cost F) :
    ∀ (L : List β) (init : Cost F), B ≤ init → (∀ x ∈ L, B ≤ f x) →
      B ≤ (L.map f).foldl min init
  | [], init, hinit, _ => hinit
  | b :: t, init, hinit, h => by
    rw [List.map_cons, List.foldl_cons]
    exact le_foldl_min_aux f B t (min init (f b))
      (le_min hinit (h b (List.mem_cons_self b t))) (fun x hx => h x (List.mem_cons_of_mem b hx))

theorem le_foldl_min {β : Type} (f : β → Cost F) (B : Cost F) (L : List β)
    (h : ∀ x ∈ L, B ≤ f x) : B ≤ (L.map f).foldl min ⊤ :=
  le_foldl_min_aux f B L ⊤ le_top h

theorem getLastD_irrel {α : Type} {xs : List α} (h : xs ≠ []) (d1 d2 : α) :
    xs.getLastD d1 = xs.getLastD d2 := by
  rw [List.getLastD_eq_getLast?, List.getLastD_eq_getLast?]
  cases hx : xs.getLast? with
  | none => exact absurd (List.getLast?_eq_none_iff.mp hx) h
  | some v => rfl

theorem getLastD_append_right {α : Type} {xs ys : List α} (h : ys ≠ []) (d : α) :
    (xs ++ ys).getLastD d = ys.getLastD d := by
  rw [List.getLastD_eq_getLast?, List.getLastD_eq_getLast?, List.getLast?_append]
  cases hy : ys.getLast? with
  | none => exact absurd (List.getLast?_eq_none_iff.mp hy) h
  | some v => rfl

theorem headD_append_left {α : Type} {xs ys : List α} (h : xs ≠ []) (d : α) :
    (xs ++ ys).headD d = xs.headD d := by
  cases xs with
  | nil => exact absurd rfl h
  | cons a t => rfl

theorem getLastD_mem {α : Type} {xs : List α} (h : xs ≠ []) (d : α) : xs.getLastD d ∈ xs := by
  rw [List.getLastD_eq_getLast?]
  cases hx : xs.getLast? with
  | none => exact absurd (List.getLast?_eq_none_iff.mp hx) h
  | some v => exact List.mem_of_getLast?_eq_some hx

theorem headD_mem {α : Type} {xs : List α} (h : xs ≠ []) (d : α) : xs.headD d ∈ xs := by
  cases xs with
  | nil => exact absurd rfl h
  | cons a t => exact List.mem_cons_self a t

theorem pathCost_append (m : List (List (Cost F))) :
    ∀ (xs ys : List Nat), xs ≠ [] → ys ≠ [] →
      pathCost m (xs ++ ys) =
        pathCost m xs + matrixGet m (xs.getLastD 0) (ys.headD 0) + pathCost m ys
  | [], _, hxs, _ => absurd rfl hxs
  | [a], ys, _, hys => by
    cases ys with
    | nil => exact absurd rfl hys
    | cons c t =>
      show matrixGet m a c + pathCost m (c :: t) = 0 + matrixGet m a c + pathCost m (c :: t)
      rw [zero_add]
  | a :: b :: t, ys, _, hys => by
    have hstep : pathCost m ((a :: b :: t) ++ ys) =
        matrixGet m a b + pathCost m ((b :: t) ++ ys) := rfl
    rw [hstep, pathCost_append m (b :: t) ys (by simp) hys]
    have hlast : (a :: b :: t).getLastD 0 = (b :: t).getLastD 0 := by
      rw [List.getLastD_eq_getLast?, List.getLastD_eq_getLast?, List.getLast?_cons_cons]
    rw [hlast]
    have hpc : pathCost m (a :: b :: t) = matrixGet m a b + pathCost m (b :: t) := rfl
    rw [hpc]
    simp [add_assoc]

theorem perm_positions (nodes rest : List Nat) (hnd : nodes.Nodup) (hperm : rest.Perm nodes) :
    ∃ σ : List Nat, σ.Perm (List.range nodes.length) ∧
      rest = σ.map (fun q => nodes.getD q 0) := by
  refine ⟨rest.map (fun c => nodes.indexOf c), ?_, ?_⟩
  · have hτ : (rest.map (fun c => nodes.indexOf c)).Perm
        (nodes.map (fun c => nodes.indexOf c)) := hperm.map _
    have hτnd : (nodes.map (fun c => nodes.indexOf c)).Nodup := by
      refine List.Nodup.map_on ?_ hnd
      intro x hx y hy hxy
      have h1 : nodes.indexOf x < nodes.length := List.indexOf_lt_length.mpr hx
      have h2 : nodes.indexOf y < nodes.length := List.indexOf_lt_length.mpr hy
      calc x = nodes.get ⟨nodes.indexOf x, h1⟩ := (List.indexOf_get h1).symm
        _ = nodes.get ⟨nodes.indexOf y, h2⟩ := by simp only [hxy]
        _ = y := List.indexOf_get h2
    have hτsub : (nodes.map (fun c => nodes.indexOf c)) ⊆ List.range nodes.length := by
      intro q hq
      rw [List.mem_map] at hq
      obtain ⟨c, hc, rfl⟩ := hq
      exact List.mem_range.mpr (List.indexOf_lt_length.mpr hc)
    have hτperm : (nodes.map (fun c => nodes.indexOf c)).Perm (List.range nodes.length) := by
      refine (hτnd.subperm hτsub).perm_of_length_le ?_
      simp
    exact hτ.trans hτperm
  · rw [List.map_map]
    have hpt : ∀ c ∈ rest,
        ((fun q => nodes.getD q 0) ∘ fun c2 => nodes.indexOf c2) c = id c := by
      intro c hc
      have hcn : c ∈ nodes := hperm.mem_iff.mp hc
      have h1 : nodes.indexOf c < nodes.length := List.indexOf_lt_length.mpr hcn
      simp only [Function.comp_apply, id_eq]
      rw [List.getD_eq_getElem _ _ h1]
      exact List.getElem_indexOf h1
    rw [List.map_congr_left hpt, List.map_id]

theorem calculateMSTCost_le_path (m : List (List (Cost F))) (n : Nat) (nodes rest : List Nat)
    (hnd : nodes.Nodup) (hmemn : ∀ v ∈ nodes, v < n)
    (hsym : ∀ i ∈ List.range n, ∀ j ∈ List.range n, matrixGet m i j = matrixGet m j i)
    (hnn : ∀ i ∈ List.range n, ∀ j ∈ List.range n, i ≠ j → 0 ≤ matrixGet m i j)
    (hk : 2 ≤ nodes.length) (hperm : rest.Perm nodes) :
    calculateMSTCost m nodes ≤ pathCost m rest := by
  obtain ⟨vs, incs, hvs, hlen, hmst, hcut⟩ := prim_run m nodes hk
  obtain ⟨σ, hσ, hrestσ⟩ := perm_positions nodes rest hnd hperm
  have hgetmem : ∀ q, q < nodes.length → nodes.getD q 0 ∈ nodes := by
    intro q hq
    rw [List.getD_eq_getElem _ _ hq]
    exact List.getElem_mem hq
  rw [pathCost_eq_zip_sum, hmst, hrestσ]
  have htransfer :
      (((σ.map (fun q => nodes.getD q 0)).zip (σ.map (fun q => nodes.getD q 0)).tail).map
        (fun e => matrixGet m e.1 e.2)).sum =
      ((σ.zip σ.tail).map
        (fun e => matrixGet m (nodes.getD e.1 0) (nodes.getD e.2 0))).sum := by
    rw [← List.map_tail, List.zip_map, List.map_map]
    rfl
  rw [htransfer]
  refine cut_incs_le_path nodes.length
    (fun q v => matrixGet m (nodes.getD q 0) (nodes.getD v 0)) ?_ ?_ vs hvs incs hlen hcut σ hσ
  · intro q v hq hv
    exact hsym _ (List.mem_range.mpr (hmemn _ (hgetmem q hq)))
      _ (List.mem_range.mpr (hmemn _ (hgetmem v hv)))
  · intro q v hq hv hne
    have hcity : nodes.getD q 0 ≠ nodes.getD v 0 := by
      rw [List.getD_eq_getElem _ _ hq, List.getD_eq_getElem _ _ hv]
      intro hcontra
      exact hne (hnd.getElem_inj_iff.mp hcontra)
    exact hnn _ (List.mem_range.mpr (hmemn _ (hgetmem q hq)))
      _ (List.mem_range.mpr (hmemn _ (hgetmem v hv))) hcity

theorem lowerBound_le_completion (m : List (List (Cost F))) (n : Nat) (p rest : List Nat)
    (hne : p ≠ []) (hnd : p.Nodup) (hmem : ∀ v ∈ p, v < n)
    (hsym : ∀ i ∈ List.range n, ∀ j ∈ List.range n, matrixGet m i j = matrixGet m j i)
    (hfin : ∀ i ∈ List.range n, ∀ j ∈ List.range n, i ≠ j → matrixGet m i j ≠ ⊤)
    (hnn : ∀ i ∈ List.range n, ∀ j ∈ List.range n, i ≠ j → 0 ≤ matrixGet m i j)
    (hrest : rest.Perm (unvisitedCities n p)) :
    calculateLowerBound m n p p ≤ completionCost m p rest := by
  have hUdef : (List.range n).filter (fun i => !(p.contains i)) = unvisitedCities n p := rfl
  have hUnd : (unvisitedCities n p).Nodup := (List.nodup_range n).filter _
  have hUmem : ∀ v ∈ unvisitedCities n p, v < n := by
    intro v hv
    exact List.mem_range.mp (List.mem_filter.mp hv).1
  have hUdisj : ∀ v ∈ unvisitedCities n p, v ∉ p := by
    intro v hv
    have h2 := (List.mem_filter.mp hv).2
    simpa using h2
  have hplen : p.length ≤ n := length_le_of_nodup_lt n p hnd hmem
  have hp0 : ¬ (p.length = 0) := by
    intro h
    exact hne (List.length_eq_zero.mp h)
  rcases Nat.lt_or_ge p.length n with hlt | hge
  · have hUne : unvisitedCities n p ≠ [] := by
      obtain ⟨v, hvk, hvp⟩ := exists_unvisited n p hnd hmem hlt
      intro hnil
      have hvU : v ∈ unvisitedCities n p :=
        List.mem_filter.mpr ⟨List.mem_range.mpr hvk, by simpa using hvp⟩
      rw [hnil] at hvU
      exact (List.not_mem_nil v) hvU
    have hUpos : 0 < (unvisitedCities n p).length := List.length_pos.mpr hUne
    have hrne : rest ≠ [] := by
      intro h
      have hl := hrest.length_eq
      rw [h] at hl
      simp at hl
      omega
    have hlastp := getLastD_mem hne 0
    have hheadp := headD_mem hne 0
    have hheadr := headD_mem hrne 0
    have hlastr := getLastD_mem hrne 0
    have hheadrU : rest.headD 0 ∈ unvisitedCities n p := hrest.mem_iff.mp hheadr
    have hlastrU : rest.getLastD 0 ∈ unvisitedCities n p := hrest.mem_iff.mp hlastr
    have hlp_n : p.getLastD 0 < n := hmem _ hlastp
    have hhp_n : p.headD 0 < n := hmem _ hheadp
    have hhr_n : rest.headD 0 < n := hUmem _ hheadrU
    have hlr_n : rest.getLastD 0 < n := hUmem _ hlastrU
    have hlp_hr : p.getLastD 0 ≠ rest.headD 0 := by
      intro h
      exact hUdisj _ hheadrU (h ▸ hlastp)
    have hlr_hp : rest.getLastD 0 ≠ p.headD 0 := by
      intro h
      exact hUdisj _ hlastrU (h.symm ▸ hheadp)
    have hMFle : (unvisitedCities n p).foldl
        (fun acc node => min acc (matrixGet m (p.getLastD 0) node)) ⊤ ≤
        matrixGet m (p.getLastD 0) (rest.headD 0) :=
      foldl_min_le_elem (fun node => matrixGet m (p.getLastD 0) node)
        (unvisitedCities n p) ⊤ (rest.headD 0) hheadrU
    have hMTle : (unvisitedCities n p).foldl
        (fun acc node => min acc (matrixGet m node (p.headD 0))) ⊤ ≤
        matrixGet m (rest.getLastD 0) (p.headD 0) :=
      foldl_min_le_elem (fun node => matrixGet m node (p.headD 0))
        (unvisitedCities n p) ⊤ (rest.getLastD 0) hlastrU
    have hMFne : ((unvisitedCities n p).foldl
        (fun acc node => min acc (matrixGet m (p.getLastD 0) node)) ⊤) ≠ ⊤ :=
      ne_top_of_le_ne_top
        (hfin _ (List.mem_range.mpr hlp_n) _ (List.mem_range.mpr hhr_n) hlp_hr) hMFle
    have hMTne : ((unvisitedCities n p).foldl
        (fun acc node => min acc (matrixGet m node (p.headD 0))) ⊤) ≠ ⊤ :=
      ne_top_of_le_ne_top
        (hfin _ (List.mem_range.mpr hlr_n) _ (List.mem_range.mpr hhp_n) hlr_hp) hMTle
    have hcomp : completionCost m p rest =
        pathCost m p + matrixGet m (p.getLastD 0) (rest.headD 0) + pathCost m rest +
          matrixGet m (rest.getLastD 0) (p.headD 0) := by
      dsimp only [completionCost, tourCost]
      rw [getLastD_append_right hrne, headD_append_left hne, pathCost_append m p rest hne hrne]
    rw [hcomp]
    dsimp only [calculateLowerBound]
    rw [hUdef, if_neg hp0, if_pos hlt, if_pos hUpos, if_pos hMFne, if_pos hMTne]
    by_cases h1U : 1 < (unvisitedCities n p).length
    · rw [if_pos h1U]
      have hMSTle : calculateMSTCost m (unvisitedCities n p) ≤ pathCost m rest :=
        calculateMSTCost_le_path m n (unvisitedCities n p) rest hUnd hUmem hsym hnn
          (by omega) hrest
      exact add_le_add (add_le_add (add_le_add le_rfl hMFle) hMSTle) hMTle
    · rw [if_neg h1U]
      have hU1 : (unvisitedCities n p).length = 1 := by omega
      obtain ⟨u, hu⟩ := List.length_eq_one.mp hU1
      have hrestu : rest = [u] := List.perm_singleton.mp (hu ▸ hrest)
      have hpr0 : pathCost m rest = 0 := by rw [hrestu]; rfl
      rw [hpr0, add_zero]
      exact add_le_add (add_le_add le_rfl hMFle) hMTle
  · have hlen : p.length = n := le_antisymm hplen hge
    have hUnil : unvisitedCities n p = [] := by
      dsimp only [unvisitedCities]
      rw [List.filter_eq_nil_iff]
      intro a ha
      have hain : a ∈ p := mem_of_nodup_length_eq n p hnd hmem hlen a (List.mem_range.mp ha)
      simp [hain]
    have hrestnil : rest = [] := by
      have hl := hrest.length_eq
      rw [hUnil] at hl
      exact List.length_eq_zero.mp (by simpa using hl)
    rw [hrestnil]
    have hcomp : completionCost m p [] =
        pathCost m p + matrixGet m (p.getLastD 0) (p.headD 0) := by
      dsimp only [completionCost, tourCost]
      rw [List.append_nil]
    rw [hcomp]
    dsimp only [calculateLowerBound]
    rw [if_neg hp0, if_neg (by omega : ¬ p.length < n)]

/-- **C2**: admissibility of the lower bound — for every nonempty
duplicate-free partial path over a symmetric matrix with finite non-negative
off-diagonal costs, `calculateLowerBound` never exceeds the brute-force
minimum cost (over all orderings of the unvisited cities) of completing the
path into a full round trip back to its first city. -/
theorem C2_lower_bound_admissible (m : List (List (Cost F))) (n : Nat) (p : List Nat)
    (hne : p ≠ []) (hnd : p.Nodup) (hmem : ∀ v ∈ p, v < n)
    (hsym : ∀ i ∈ List.range n, ∀ j ∈ List.range n, matrixGet m i j = matrixGet m j i)
    (hfin : ∀ i ∈ List.range n, ∀ j ∈ List.range n, i ≠ j → matrixGet m i j ≠ ⊤)
    (hnn : ∀ i ∈ List.range n, ∀ j ∈ List.range n, i ≠ j → 0 ≤ matrixGet m i j) :
    calculateLowerBound m n p p ≤ minCompletionCost m n p := by
  dsimp only [minCompletionCost]
  refine le_foldl_min (completionCost m p) (calculateLowerBound m n p p)
    ((unvisitedCities n p).permutations') ?_
  intro rest hrestp
  exact lowerBound_le_completion m n p rest hne hnd hmem hsym hfin hnn
    (List.mem_permutations'.mp hrestp)

/-! ### Well-formed node maps: lookup round trips -/

theorem lookup_mem {α β : Type} [BEq α] [LawfulBEq α] {l : List (α × β)} {a : α} {b : β}
    (h : List.lookup a l = some b) : (a, b) ∈ l := by
  obtain ⟨l1, l2, rfl, -⟩ := List.lookup_eq_some_iff.mp h
  exact List.mem_append.mpr (Or.inr (List.mem_cons_self _ _))

theorem lookup_of_mem_nodup {α β : Type} [BEq α] [LawfulBEq α] :
    ∀ (l : List (α × β)), (l.map Prod.fst).Nodup → ∀ (a : α) (b : β), (a, b) ∈ l →
      List.lookup a l = some b
  | [], _, _, b, hab => absurd hab (List.not_mem_nil _)
  | (k, v) :: t, hnd, a, b, hab => by
    rw [List.lookup_cons]
    rcases List.mem_cons.mp hab with heq | hmem
    · injection heq with h1 h2
      subst h1
      subst h2
      simp
    · have hak : (a == k) = false := by
        rw [beq_eq_false_iff_ne]
        intro hcontra
        subst hcontra
        have hmap : a ∈ t.map Prod.fst := List.mem_map.mpr ⟨(a, b), hmem, rfl⟩
        rw [List.map_cons, List.nodup_cons] at hnd
        exact hnd.1 hmap
      rw [hak]
      rw [List.map_cons, List.nodup_cons] at hnd
      exact lookup_of_mem_nodup t hnd.2 a b hmem

theorem inj_on_of_map_nodup {α β : Type} :
    ∀ (l : List α) (f : α → β), (l.map f).Nodup → ∀ x ∈ l, ∀ y ∈ l, f x = f y → x = y
  | [], _, _, x, hx, _, _, _ => absurd hx (List.not_mem_nil x)
  | a :: t, f, hnd, x, hx, y, hy, hxy => by
    rw [List.map_cons, List.nodup_cons] at hnd
    rcases List.mem_cons.mp hx with rfl | hxt
    · rcases List.mem_cons.mp hy with rfl | hyt
      · rfl
      · exact absurd (List.mem_map.mpr ⟨y, hyt, hxy.symm⟩) hnd.1
    · rcases List.mem_cons.mp hy with rfl | hyt
      · exact absurd (List.mem_map.mpr ⟨x, hxt, hxy⟩) hnd.1
      · exact inj_on_of_map_nodup t f hnd.2 x hxt y hyt hxy

theorem src_lt_n (s : Solver F) (hvals : (s.nodeMap.map Prod.snd).Perm (List.range s.n))
    {i : Nat} (h : List.lookup s.sourceNodeId s.nodeMap = some i) : i < s.n := by
  have hm := lookup_mem h
  have hvm : i ∈ s.nodeMap.map Prod.snd := List.mem_map.mpr ⟨_, hm, rfl⟩
  exact List.mem_range.mp (hvals.mem_iff.mp hvm)

theorem rmap_keys_nodup (s : Solver F)
    (hvals : (s.nodeMap.map Prod.snd).Perm (List.range s.n)) :
    (s.reverseNodeMap.map Prod.fst).Nodup := by
  have hvnd : (s.nodeMap.map Prod.snd).Nodup := hvals.nodup_iff.mpr (List.nodup_range s.n)
  have hEq : s.reverseNodeMap.map Prod.fst = s.nodeMap.map Prod.snd := by
    rw [Solver.reverseNodeMap, List.map_map]
    rfl
  rw [hEq]
  exact hvnd

theorem nodeGet_reverseGet (s : Solver F) (hkeys : (s.nodeMap.map Prod.fst).Nodup)
    (hvals : (s.nodeMap.map Prod.snd).Perm (List.range s.n)) (i : Nat) (hi : i < s.n) :
    List.lookup (reverseGet s.reverseNodeMap i) s.nodeMap = some i := by
  have hiv : i ∈ s.nodeMap.map Prod.snd := hvals.mem_iff.mpr (List.mem_range.mpr hi)
  obtain ⟨pr, hpr, hpr2⟩ := List.mem_map.mp hiv
  have hrm : (i, pr.1) ∈ s.reverseNodeMap := by
    rw [Solver.reverseNodeMap]
    exact List.mem_map.mpr ⟨pr, hpr, by rw [hpr2]⟩
  have hlook : List.lookup i s.reverseNodeMap = some pr.1 :=
    lookup_of_mem_nodup _ (rmap_keys_nodup s hvals) i pr.1 hrm
  have hrg : reverseGet s.reverseNodeMap i = pr.1 := by
    rw [reverseGet, hlook]
    rfl
  have hpair : (pr.1, pr.2) ∈ s.nodeMap := by
    rw [Prod.mk.eta]
    exact hpr
  rw [hrg, lookup_of_mem_nodup _ hkeys pr.1 pr.2 hpair, hpr2]

theorem nodeGet_rg (s : Solver F) (hkeys : (s.nodeMap.map Prod.fst).Nodup)
    (hvals : (s.nodeMap.map Prod.snd).Perm (List.range s.n)) (i : Nat) (hi : i < s.n) :
    nodeGet s.nodeMap (reverseGet s.reverseNodeMap i) = i := by
  rw [nodeGet, nodeGet_reverseGet s hkeys hvals i hi]
  rfl

theorem reverseGet_inj (s : Solver F) (hkeys : (s.nodeMap.map Prod.fst).Nodup)
    (hvals : (s.nodeMap.map Prod.snd).Perm (List.range s.n)) {i j : Nat}
    (hi : i < s.n) (hj : j < s.n)
    (h : reverseGet s.reverseNodeMap i = reverseGet s.reverseNodeMap j) : i = j := by
  have h1 := nodeGet_rg s hkeys hvals i hi
  have h2 := nodeGet_rg s hkeys hvals j hj
  rw [h] at h1
  rw [h1] at h2
  exact h2

theorem reverseGet_src (s : Solver F) (hkeys : (s.nodeMap.map Prod.fst).Nodup)
    (hvals : (s.nodeMap.map Prod.snd).Perm (List.range s.n)) {i : Nat}
    (h : List.lookup s.sourceNodeId s.nodeMap = some i) :
    reverseGet s.reverseNodeMap i = s.sourceNodeId := by
  have hvnd : (s.nodeMap.map Prod.snd).Nodup := hvals.nodup_iff.mpr (List.nodup_range s.n)
  have hm1 := lookup_mem (nodeGet_reverseGet s hkeys hvals i (src_lt_n s hvals h))
  have hm2 := lookup_mem h
  have heq := inj_on_of_map_nodup s.nodeMap Prod.snd hvnd _ hm1 _ hm2 rfl
  exact congrArg Prod.fst heq

theorem map_nodeGet_rg (s : Solver F) (hkeys : (s.nodeMap.map Prod.fst).Nodup)
    (hvals : (s.nodeMap.map Prod.snd).Perm (List.range s.n)) (q : List Nat)
    (hq : ∀ v ∈ q, v < s.n) :
    (q.map (reverseGet s.reverseNodeMap)).map (nodeGet s.nodeMap) = q := by
  rw [List.map_map]
  have hpt : ∀ v ∈ q, (nodeGet s.nodeMap ∘ reverseGet s.reverseNodeMap) v = id v := by
    intro v hv
    simp only [Function.comp_apply, id_eq]
    exact nodeGet_rg s hkeys hvals v (hq v hv)
  rw [List.map_congr_left hpt, List.map_id]

theorem mem_map_rg (s : Solver F) (hkeys : (s.nodeMap.map Prod.fst).Nodup)
    (hvals : (s.nodeMap.map Prod.snd).Perm (List.range s.n)) (q : List Nat)
    (hq : ∀ v ∈ q, v < s.n) (c : Nat) (hc : c < s.n) :
    reverseGet s.reverseNodeMap c ∈ q.map (reverseGet s.reverseNodeMap) ↔ c ∈ q := by
  constructor
  · intro h
    obtain ⟨v, hv, hveq⟩ := List.mem_map.mp h
    exact (reverseGet_inj s hkeys hvals (hq v hv) hc hveq) ▸ hv
  · intro h
    exact List.mem_map.mpr ⟨c, h, rfl⟩

theorem getLastD_map_ne {α β : Type} (g : α → β) (q : List α) (hq : q ≠ [])
    (d1 : β) (d2 : α) : (q.map g).getLastD d1 = g (q.getLastD d2) := by
  have hmne : q.map g ≠ [] := by simpa using hq
  rw [getLastD_irrel hmne d1 (g d2), List.getLastD_map]

theorem headD_map_ne {α β : Type} (g : α → β) (q : List α) (hq : q ≠ [])
    (d1 : β) (d2 : α) : (q.map g).headD d1 = g (q.headD d2) := by
  cases q with
  | nil => exact absurd rfl hq
  | cons a t => rfl

/-! ### Tour decomposition facts for the optimality proof -/

theorem pathCost_snoc (m : List (List (Cost F))) (q : List Nat) (c : Nat) (hq : q ≠ []) :
    pathCost m (q ++ [c]) = pathCost m q + matrixGet m (q.getLastD 0) c := by
  rw [pathCost_append m q [c] hq (by simp)]
  show pathCost m q + matrixGet m (q.getLastD 0) c + 0 = _
  rw [add_zero]

theorem suffix_perm_unvisited (n : Nat) (q pre rest : List Nat)
    (hq : q.Perm (List.range n)) (hsplit : q = pre ++ rest) :
    rest.Perm (unvisitedCities n pre) := by
  have hqnd : q.Nodup := hq.nodup_iff.mpr (List.nodup_range n)
  have hdisj : ∀ a ∈ rest, a ∉ pre := by
    rw [hsplit] at hqnd
    have hd := (List.nodup_append.mp hqnd).2.2
    exact fun a ha hp => hd hp ha
  have hfilter : q.filter (fun v => !(pre.contains v)) = rest := by
    rw [hsplit, List.filter_append]
    have h1 : pre.filter (fun v => !(pre.contains v)) = [] := by
      rw [List.filter_eq_nil_iff]
      intro a ha
      simp [ha]
    have h2 : rest.filter (fun v => !(pre.contains v)) = rest := by
      rw [List.filter_eq_self]
      intro a ha
      simpa using hdisj a ha
    rw [h1, h2, List.nil_append]
  have hpf : ((List.range n).filter (fun v => !(pre.contains v))).Perm
      (q.filter (fun v => !(pre.contains v))) := (hq.symm).filter _
  dsimp only [unvisitedCities]
  exact (hfilter ▸ hpf).symm

theorem foldl_min_map_le_elem {β : Type} (f : β → Cost F) (L : List β) (x : β) (hx : x ∈ L) :
    (L.map f).foldl min ⊤ ≤ f x := by
  rw [List.foldl_map]
  exact foldl_min_le_elem f L ⊤ x hx

theorem head_ne_last_of_nodup (q : List Nat) (hnd : q.Nodup) (h2 : 2 ≤ q.length) :
    q.headD 0 ≠ q.getLastD 0 := by
  cases q with
  | nil => simp at h2
  | cons c t =>
    cases t with
    | nil => simp at h2
    | cons b u =>
      have hnd2 := List.nodup_cons.mp hnd
      have hlm : (c :: b :: u).getLastD 0 ∈ b :: u := by
        have hbne : (b :: u) ≠ [] := by simp
        have h3 : (c :: b :: u).getLastD 0 = (b :: u).getLastD 0 := by
          rw [List.getLastD_eq_getLast?, List.getLastD_eq_getLast?, List.getLast?_cons_cons]
        rw [h3]
        exact getLastD_mem hbne 0
      intro hcontra
      rw [show (c :: b :: u).headD 0 = c from rfl] at hcontra
      rw [← hcontra] at hlm
      exact hnd2.1 hlm

theorem pathCost_ne_top (m : List (List (Cost F))) (n : Nat)
    (hfin : ∀ i ∈ List.range n, ∀ j ∈ List.range n, i ≠ j → matrixGet m i j ≠ ⊤) :
    ∀ q : List Nat, q.Nodup → (∀ v ∈ q, v < n) → pathCost m q ≠ ⊤
  | [], _, _ => by
    show (0 : Cost F) ≠ ⊤
    simp
  | [a], _, _ => by
    show (0 : Cost F) ≠ ⊤
    simp
  | a :: b :: t, hnd, hmem => by
    rw [pathCost]
    have hab : a ≠ b := by
      intro h
      rw [List.nodup_cons] at hnd
      exact hnd.1 (h ▸ List.mem_cons_self b t)
    have h1 : matrixGet m a b ≠ ⊤ :=
      hfin a (List.mem_range.mpr (hmem a (by simp))) b (List.mem_range.mpr (hmem b (by simp)))
        hab
    have h2 : pathCost m (b :: t) ≠ ⊤ :=
      pathCost_ne_top m n hfin (b :: t) (List.nodup_cons.mp hnd).2
        (fun v hv => hmem v (List.mem_cons_of_mem a hv))
    exact WithTop.add_ne_top.mpr ⟨h1, h2⟩

theorem tourCost_ne_top (m : List (List (Cost F))) (n : Nat) (q : List Nat)
    (hq : q.Perm (List.range n)) (h2 : 2 ≤ n)
    (hfin : ∀ i ∈ List.range n, ∀ j ∈ List.range n, i ≠ j → matrixGet m i j ≠ ⊤) :
    tourCost m q ≠ ⊤ := by
  have hqnd : q.Nodup := hq.nodup_iff.mpr (List.nodup_range n)
  have hqmem : ∀ v ∈ q, v < n := fun v hv => List.mem_range.mp (hq.mem_iff.mp hv)
  have hqlen : q.length = n := by simpa using hq.length_eq
  have hhl := head_ne_last_of_nodup q hqnd (by omega)
  have hne : q ≠ [] := by
    intro h
    rw [h] at hqlen
    simp at hqlen
    omega
  dsimp only [tourCost]
  refine WithTop.add_ne_top.mpr ⟨pathCost_ne_top m n hfin q hqnd hqmem, ?_⟩
  exact hfin _ (List.mem_range.mpr (hqmem _ (getLastD_mem hne 0)))
    _ (List.mem_range.mpr (hqmem _ (headD_mem hne 0))) (Ne.symm hhl)

/-- Witness for C2: the unit triangle with partial path `[0]`. -/
theorem C2_witness :
    ([0] : List Nat) ≠ [] ∧
      calculateLowerBound triSolver.matrix 3 [0] [0] ≤
        minCompletionCost triSolver.matrix 3 [0] :=
  ⟨by decide, C2_lower_bound_admissible triSolver.matrix 3 [0] (by decide) (by decide)
    (by decide) (by decide) (by decide) (by decide)⟩

/-! ### The branch-and-bound optimality invariant (claim C1) -/

/-- A node carries exactly the data generated from the index path `pre`. -/
def NodeOf (s : Solver F) (pre : List Nat) (node : PartialSolution F) : Prop :=
  node.path = pre.map (reverseGet s.reverseNodeMap) ∧
  node.visited = node.path ∧
  node.level = pre.length ∧
  node.cost = pathCost s.matrix pre ∧
  node.lowerBound = calculateLowerBound s.matrix s.n pre pre

/-- A frontier node is well formed: generated by a nonempty duplicate-free
in-range index path that starts at the source index. -/
def NodeWF (s : Solver F) (src0 : Nat) (node : PartialSolution F) : Prop :=
  ∃ q : List Nat, q ≠ [] ∧ q.Nodup ∧ (∀ v ∈ q, v < s.n) ∧ q.headD 0 = src0 ∧ NodeOf s q node

/-- The incumbent is either still unset, or is an achievable tour from the
source. -/
def Incumbent (s : Solver F) (src0 : Nat) (st : SolveState F) : Prop :=
  (st.bestCost = ⊤ ∧ st.bestPath = []) ∨
  (∃ q : List Nat, q.Perm (List.range s.n) ∧ q.headD 0 = src0 ∧
    st.bestCost = tourCost s.matrix q ∧
    st.bestPath = q.map (reverseGet s.reverseNodeMap) ++ [reverseGet s.reverseNodeMap src0])

/-- Every candidate tour is either already dominated by the incumbent, or
still reachable from a frontier node matching one of its prefixes. -/
def Covers (s : Solver F) (st : SolveState F) (q : List Nat) : Prop :=
  st.bestCost ≤ tourCost s.matrix q ∨
  ∃ node ∈ st.queue, ∃ pre rest2 : List Nat, pre ≠ [] ∧ q = pre ++ rest2 ∧ NodeOf s pre node

/-- The full loop invariant for the optimality proof. -/
def SearchInv (s : Solver F) (src0 : Nat) (st : SolveState F) : Prop :=
  (∀ node ∈ st.queue, NodeWF s src0 node) ∧
  Incumbent s src0 st ∧
  ∀ q : List Nat, q.Perm (List.range s.n) → q.headD 0 = src0 → Covers s st q

theorem expandChild_bestPath (s : Solver F) (c : Nat → Int) (cur : PartialSolution F)
    (cp : List Nat) (st : SolveState F) (i : Nat) :
    (expandChild s c cur cp st i).bestPath = st.bestPath := by
  dsimp only [expandChild]
  split
  · rfl
  · split <;> rfl

theorem foldl_expandChild_bestCost (s : Solver F) (c : Nat → Int) (cur : PartialSolution F)
    (cp : List Nat) :
    ∀ (L : List Nat) (st : SolveState F),
      (L.foldl (expandChild s c cur cp) st).bestCost = st.bestCost := by
  intro L
  induction L with
  | nil => exact fun st => rfl
  | cons i L ih =>
    intro st
    rw [List.foldl_cons, ih (expandChild s c cur cp st i), expandChild_bestCost]

theorem foldl_expandChild_bestPath (s : Solver F) (c : Nat → Int) (cur : PartialSolution F)
    (cp : List Nat) :
    ∀ (L : List Nat) (st : SolveState F),
      (L.foldl (expandChild s c cur cp) st).bestPath = st.bestPath := by
  intro L
  induction L with
  | nil => exact fun st => rfl
  | cons i L ih =>
    intro st
    rw [List.foldl_cons, ih (expandChild s c cur cp st i), expandChild_bestPath]

theorem incumbent_of_fields (s : Solver F) (src0 : Nat) {st st2 : SolveState F}
    (hbc : st2.bestCost = st.bestCost) (hbp : st2.bestPath = st.bestPath)
    (h : Incumbent s src0 st) : Incumbent s src0 st2 := by
  unfold Incumbent at h ⊢
  rw [hbc, hbp]
  exact h

theorem child_nodeOf (s : Solver F) (hkeys : (s.nodeMap.map Prod.fst).Nodup)
    (hvals : (s.nodeMap.map Prod.snd).Perm (List.range s.n)) (cur : PartialSolution F)
    (pre : List Nat) (hpre : pre ≠ []) (hmem : ∀ v ∈ pre, v < s.n)
    (hof : NodeOf s pre cur) (counter : Nat) (idx : Nat) :
    NodeOf s (pre ++ [idx])
      (createPartialSolution s counter (pre ++ [idx])
        (cur.cost + matrixGet s.matrix (nodeGet s.nodeMap (cur.path.getLastD "")) idx)
        (cur.level + 1) (some cur.id)).1 := by
  obtain ⟨hpath, hvis, hlev, hcost, hlb⟩ := hof
  have hlast : nodeGet s.nodeMap (cur.path.getLastD "") = pre.getLastD 0 := by
    rw [hpath, getLastD_map_ne _ pre hpre "" 0]
    exact nodeGet_rg s hkeys hvals _ (hmem _ (getLastD_mem hpre 0))
  refine ⟨rfl, rfl, ?_, ?_, rfl⟩
  · show cur.level + 1 = (pre ++ [idx]).length
    rw [hlev]
    simp
  · show cur.cost + matrixGet s.matrix (nodeGet s.nodeMap (cur.path.getLastD "")) idx =
      pathCost s.matrix (pre ++ [idx])
    rw [hcost, hlast, pathCost_snoc s.matrix pre idx hpre]

theorem expandChild_queueWF (s : Solver F) (c : Nat → Int)
    (hkeys : (s.nodeMap.map Prod.fst).Nodup)
    (hvals : (s.nodeMap.map Prod.snd).Perm (List.range s.n)) (src0 : Nat)
    (cur : PartialSolution F) (q0 : List Nat) (st : SolveState F) (idx : Nat)
    (hidx : idx < s.n) (hq0ne : q0 ≠ []) (hq0nd : q0.Nodup) (hq0mem : ∀ v ∈ q0, v < s.n)
    (hq0head : q0.headD 0 = src0) (hof0 : NodeOf s q0 cur)
    (hWF : ∀ node ∈ st.queue, NodeWF s src0 node) :
    ∀ node ∈ (expandChild s c cur q0 st idx).queue, NodeWF s src0 node := by
  dsimp only [expandChild]
  split
  · exact hWF
  · next hmemvis =>
    have hidxq0 : idx ∉ q0 := by
      intro hin
      apply hmemvis
      rw [hof0.2.1, hof0.1]
      exact (mem_map_rg s hkeys hvals q0 hq0mem idx hidx).mpr hin
    split
    · intro node hnode
      simp only [List.mem_append, List.mem_singleton] at hnode
      rcases hnode with hnode | rfl
      · exact hWF node hnode
      · refine ⟨q0 ++ [idx], by simp, ?_, ?_, ?_,
          child_nodeOf s hkeys hvals cur q0 hq0ne hq0mem hof0 st.solutionCounter idx⟩
        · rw [List.nodup_append]
          refine ⟨hq0nd, by simp, fun a ha hin => hidxq0 ?_⟩
          rw [List.mem_singleton.mp hin] at ha
          exact ha
        · intro v hv
          rcases List.mem_append.mp hv with hv | hv
          · exact hq0mem v hv
          · rw [List.mem_singleton.mp hv]
            exact hidx
        · rw [headD_append_left hq0ne]
          exact hq0head
    · exact hWF

theorem foldl_expandChild_queueWF (s : Solver F) (c : Nat → Int)
    (hkeys : (s.nodeMap.map Prod.fst).Nodup)
    (hvals : (s.nodeMap.map Prod.snd).Perm (List.range s.n)) (src0 : Nat)
    (cur : PartialSolution F) (q0 : List Nat)
    (hq0ne : q0 ≠ []) (hq0nd : q0.Nodup) (hq0mem : ∀ v ∈ q0, v < s.n)
    (hq0head : q0.headD 0 = src0) (hof0 : NodeOf s q0 cur) :
    ∀ (L : List Nat), (∀ i ∈ L, i < s.n) → ∀ (st : SolveState F),
      (∀ node ∈ st.queue, NodeWF s src0 node) →
      ∀ node ∈ (L.foldl (expandChild s c cur q0) st).queue, NodeWF s src0 node := by
  intro L
  induction L with
  | nil => exact fun _ st h => h
  | cons i L ih =>
    intro hL st h
    rw [List.foldl_cons]
    refine ih (fun j hj => hL j (List.mem_cons_of_mem i hj)) _ ?_
    exact expandChild_queueWF s c hkeys hvals src0 cur q0 st i
      (hL i (List.mem_cons_self i L)) hq0ne hq0nd hq0mem hq0head hof0 h

theorem expandChild_push (s : Solver F) (c : Nat → Int) (cur : PartialSolution F)
    (cp : List Nat) (st : SolveState F) (idx : Nat)
    (hnv : reverseGet s.reverseNodeMap idx ∉ cur.visited)
    (made : PartialSolution F × Nat)
    (hmade : made = createPartialSolution s st.solutionCounter (cp ++ [idx])
      (cur.cost + matrixGet s.matrix (nodeGet s.nodeMap (cur.path.getLastD "")) idx)
      (cur.level + 1) (some cur.id))
    (hpush : made.1.lowerBound < st.bestCost) :
    (expandChild s c cur cp st idx).queue = st.queue ++ [made.1] ∧
    (expandChild s c cur cp st idx).bestCost = st.bestCost := by
  subst hmade
  dsimp only [expandChild]
  rw [if_neg hnv, if_pos hpush]
  exact ⟨rfl, rfl⟩

theorem expandChild_nopush (s : Solver F) (c : Nat → Int) (cur : PartialSolution F)
    (cp : List Nat) (st : SolveState F) (idx : Nat)
    (hnv : reverseGet s.reverseNodeMap idx ∉ cur.visited)
    (made : PartialSolution F × Nat)
    (hmade : made = createPartialSolution s st.solutionCounter (cp ++ [idx])
      (cur.cost + matrixGet s.matrix (nodeGet s.nodeMap (cur.path.getLastD "")) idx)
      (cur.level + 1) (some cur.id))
    (hnp : ¬ made.1.lowerBound < st.bestCost) :
    (expandChild s c cur cp st idx).queue = st.queue ∧
    (expandChild s c cur cp st idx).bestCost = st.bestCost := by
  subst hmade
  dsimp only [expandChild]
  rw [if_neg hnv, if_neg hnp]
  exact ⟨rfl, rfl⟩

theorem lb_le_tour (s : Solver F)
    (hsym : ∀ i ∈ List.range s.n, ∀ j ∈ List.range s.n,
      matrixGet s.matrix i j = matrixGet s.matrix j i)
    (hfin : ∀ i ∈ List.range s.n, ∀ j ∈ List.range s.n, i ≠ j → matrixGet s.matrix i j ≠ ⊤)
    (hnn : ∀ i ∈ List.range s.n, ∀ j ∈ List.range s.n, i ≠ j → 0 ≤ matrixGet s.matrix i j)
    (q pre rest2 : List Nat) (hqperm : q.Perm (List.range s.n)) (hsplit : q = pre ++ rest2)
    (hprene : pre ≠ []) :
    calculateLowerBound s.matrix s.n pre pre ≤ tourCost s.matrix q := by
  have hqnd : q.Nodup := hqperm.nodup_iff.mpr (List.nodup_range _)
  have hqmem : ∀ v ∈ q, v < s.n := fun v hv => List.mem_range.mp (hqperm.mem_iff.mp hv)
  have hprend : pre.Nodup := by
    rw [hsplit] at hqnd
    exact (List.nodup_append.mp hqnd).1
  have hpremem : ∀ v ∈ pre, v < s.n := by
    intro v hv
    refine hqmem v ?_
    rw [hsplit]
    exact List.mem_append.mpr (Or.inl hv)
  have hadm := lowerBound_le_completion s.matrix s.n pre rest2 hprene hprend hpremem hsym hfin
    hnn (suffix_perm_unvisited s.n q pre rest2 hqperm hsplit)
  rw [show completionCost s.matrix pre rest2 = tourCost s.matrix (pre ++ rest2) from rfl,
    ← hsplit] at hadm
  exact hadm

theorem expandChildren_establish (s : Solver F) (c : Nat → Int)
    (hkeys : (s.nodeMap.map Prod.fst).Nodup)
    (hvals : (s.nodeMap.map Prod.snd).Perm (List.range s.n))
    (hsym : ∀ i ∈ List.range s.n, ∀ j ∈ List.range s.n,
      matrixGet s.matrix i j = matrixGet s.matrix j i)
    (hfin : ∀ i ∈ List.range s.n, ∀ j ∈ List.range s.n, i ≠ j → matrixGet s.matrix i j ≠ ⊤)
    (hnn : ∀ i ∈ List.range s.n, ∀ j ∈ List.range s.n, i ≠ j → 0 ≤ matrixGet s.matrix i j)
    (current : PartialSolution F) (pre rest2 q : List Nat) (st1 : SolveState F)
    (hqperm : q.Perm (List.range s.n)) (hsplit : q = pre ++ rest2) (hrest2 : rest2 ≠ [])
    (hprene : pre ≠ []) (hof : NodeOf s pre current) :
    Covers s (expandChildren s c current pre st1) q := by
  have hqnd : q.Nodup := hqperm.nodup_iff.mpr (List.nodup_range _)
  have hqmem : ∀ v ∈ q, v < s.n := fun v hv => List.mem_range.mp (hqperm.mem_iff.mp hv)
  have hpremem : ∀ v ∈ pre, v < s.n := by
    intro v hv
    refine hqmem v ?_
    rw [hsplit]
    exact List.mem_append.mpr (Or.inl hv)
  have hc0mem : rest2.headD 0 ∈ rest2 := headD_mem hrest2 0
  have hc0q : rest2.headD 0 ∈ q := by
    rw [hsplit]
    exact List.mem_append.mpr (Or.inr hc0mem)
  have hc0n : rest2.headD 0 < s.n := hqmem _ hc0q
  have hc0pre : rest2.headD 0 ∉ pre := by
    rw [hsplit] at hqnd
    exact fun hp => (List.nodup_append.mp hqnd).2.2 hp hc0mem
  have hrest2eq : rest2 = rest2.headD 0 :: rest2.tail := by
    cases rest2 with
    | nil => exact absurd rfl hrest2
    | cons a t => rfl
  have hsplit2 : q = (pre ++ [rest2.headD 0]) ++ rest2.tail := by
    rw [hsplit]
    conv_lhs => rw [hrest2eq]
    rw [List.append_assoc]
    rfl
  have hprene2 : (pre ++ [rest2.headD 0]) ≠ [] := by simp
  have hnv : reverseGet s.reverseNodeMap (rest2.headD 0) ∉ current.visited := by
    rw [hof.2.1, hof.1]
    intro hmm2
    exact hc0pre ((mem_map_rg s hkeys hvals pre hpremem _ hc0n).mp hmm2)
  obtain ⟨l1, l2, hr⟩ := List.append_of_mem (List.mem_range.mpr hc0n)
  dsimp only [expandChildren]
  unfold Covers
  rw [hr, List.foldl_append, List.foldl_cons]
  set stMid := l1.foldl (expandChild s c current pre) st1 with hstMid
  set made := createPartialSolution s stMid.solutionCounter (pre ++ [rest2.headD 0])
    (current.cost +
      matrixGet s.matrix (nodeGet s.nodeMap (current.path.getLastD "")) (rest2.headD 0))
    (current.level + 1) (some current.id) with hmade
  by_cases hpush : made.1.lowerBound < stMid.bestCost
  · obtain ⟨hq1, hb1⟩ :=
      expandChild_push s c current pre stMid (rest2.headD 0) hnv made hmade hpush
    obtain ⟨tail2, htail2, -, -⟩ := foldl_expandChild_queue s c current pre l2
      (expandChild s c current pre stMid (rest2.headD 0))
    right
    refine ⟨made.1, ?_, pre ++ [rest2.headD 0], rest2.tail, hprene2, hsplit2, ?_⟩
    · rw [htail2, hq1]
      simp
    · rw [hmade]
      exact child_nodeOf s hkeys hvals current pre hprene hpremem hof
        stMid.solutionCounter (rest2.headD 0)
  · obtain ⟨hq1, hb1⟩ :=
      expandChild_nopush s c current pre stMid (rest2.headD 0) hnv made hmade hpush
    left
    have hbF : (l2.foldl (expandChild s c current pre)
        (expandChild s c current pre stMid (rest2.headD 0))).bestCost = stMid.bestCost := by
      rw [foldl_expandChild_bestCost, hb1]
    rw [hbF]
    have hnp2 : stMid.bestCost ≤ made.1.lowerBound := not_lt.mp hpush
    have hlb : made.1.lowerBound =
        calculateLowerBound s.matrix s.n (pre ++ [rest2.headD 0]) (pre ++ [rest2.headD 0]) := by
      rw [hmade]
      rfl
    calc stMid.bestCost ≤ made.1.lowerBound := hnp2
      _ = calculateLowerBound s.matrix s.n (pre ++ [rest2.headD 0])
          (pre ++ [rest2.headD 0]) := hlb
      _ ≤ tourCost s.matrix q :=
          lb_le_tour s hsym hfin hnn q (pre ++ [rest2.headD 0]) rest2.tail hqperm
            hsplit2 hprene2

theorem solveStep_searchInv (s : Solver F) (c : Nat → Int)
    (hkeys : (s.nodeMap.map Prod.fst).Nodup)
    (hvals : (s.nodeMap.map Prod.snd).Perm (List.range s.n))
    (hsym : ∀ i ∈ List.range s.n, ∀ j ∈ List.range s.n,
      matrixGet s.matrix i j = matrixGet s.matrix j i)
    (hfin : ∀ i ∈ List.range s.n, ∀ j ∈ List.range s.n, i ≠ j → matrixGet s.matrix i j ≠ ⊤)
    (hnn : ∀ i ∈ List.range s.n, ∀ j ∈ List.range s.n, i ≠ j → 0 ≤ matrixGet s.matrix i j)
    (src0 : Nat) (st : SolveState F) (hP : SearchInv s src0 st) :
    SearchInv s src0 (solveStep s c st) := by
  obtain ⟨hWF, hInc, hCov⟩ := hP
  dsimp only [solveStep]
  split
  · exact ⟨hWF, hInc, hCov⟩
  · next current rest heq =>
    have hperm : (st.queue.insertionSort (fun a b => a.lowerBound ≤ b.lowerBound)).Perm
        st.queue := List.perm_insertionSort _ _
    have hmemq : ∀ node ∈ current :: rest, node ∈ st.queue := by
      intro node h
      exact hperm.mem_iff.mp (heq ▸ h)
    have hWFc : NodeWF s src0 current := hWF _ (hmemq _ (List.mem_cons_self _ _))
    have hWFrest : ∀ node ∈ rest, NodeWF s src0 node :=
      fun node h => hWF _ (hmemq _ (List.mem_cons_of_mem _ h))
    have hto_cr : ∀ node ∈ st.queue, node ∈ current :: rest := by
      intro node h
      rw [← heq]
      exact hperm.mem_iff.mpr h
    split
    · next hple =>
      refine ⟨hWFrest, incumbent_of_fields s src0 rfl rfl hInc, ?_⟩
      intro q hqperm hqhead
      rcases hCov q hqperm hqhead with hb | ⟨node, hnode, pre, rest2, hprene, hsplitq, hof⟩
      · exact Or.inl hb
      · rcases List.mem_cons.mp (hto_cr node hnode) with rfl | hnrest
        · left
          calc st.bestCost ≤ node.lowerBound := hple
            _ = calculateLowerBound s.matrix s.n pre pre := hof.2.2.2.2
            _ ≤ tourCost s.matrix q := lb_le_tour s hsym hfin hnn q pre rest2 hqperm
                hsplitq hprene
        · exact Or.inr ⟨node, hnrest, pre, rest2, hprene, hsplitq, hof⟩
    · next hnple =>
      obtain ⟨q0, hq0ne, hq0nd, hq0mem, hq0head, hof0⟩ := hWFc
      have hcp : current.path.map (nodeGet s.nodeMap) = q0 := by
        rw [hof0.1]
        exact map_nodeGet_rg s hkeys hvals q0 hq0mem
      rw [hcp]
      split
      · next hlev =>
        have hq0len : q0.length = s.n := by
          rw [← hof0.2.2.1]
          exact hlev
        have hq0perm : q0.Perm (List.range s.n) := by
          have hsub : q0 ⊆ List.range s.n := fun v hv => List.mem_range.mpr (hq0mem v hv)
          exact (hq0nd.subperm hsub).perm_of_length_le (by simp [hq0len])
        have htc : current.cost + matrixGet s.matrix (q0.getLastD 0) (q0.headD 0) =
            tourCost s.matrix q0 := by
          rw [hof0.2.2.2.1]
          rfl
        split
        · next himp =>
          refine ⟨hWFrest, ?_, ?_⟩
          · right
            refine ⟨q0, hq0perm, hq0head, htc, ?_⟩
            show current.path ++ [current.path.headD ""] =
              q0.map (reverseGet s.reverseNodeMap) ++ [reverseGet s.reverseNodeMap src0]
            rw [hof0.1, headD_map_ne _ q0 hq0ne "" 0, hq0head]
          · intro q hqperm hqhead
            rcases hCov q hqperm hqhead with hb | ⟨node, hnode, pre, rest2, hprene, hsplitq, hof⟩
            · exact Or.inl (le_trans (le_of_lt himp) hb)
            · rcases List.mem_cons.mp (hto_cr node hnode) with rfl | hnrest
              · left
                have hpremem2 : ∀ v ∈ pre, v < s.n := by
                  intro v hv
                  refine List.mem_range.mp (hqperm.mem_iff.mp ?_)
                  rw [hsplitq]
                  exact List.mem_append.mpr (Or.inl hv)
                have hpre_eq : pre = q0 := by
                  have h1 : pre.map (reverseGet s.reverseNodeMap) =
                      q0.map (reverseGet s.reverseNodeMap) := by
                    rw [← hof.1, ← hof0.1]
                  have h2 := map_nodeGet_rg s hkeys hvals pre hpremem2
                  have h3 := map_nodeGet_rg s hkeys hvals q0 hq0mem
                  rw [← h2, h1, h3]
                have hrest2nil : rest2 = [] := by
                  have hql : q.length = s.n := by simpa using hqperm.length_eq
                  have hq2 : q.length = pre.length + rest2.length := by
                    rw [hsplitq]
                    simp
                  have hpl : pre.length = s.n := by rw [hpre_eq, hq0len]
                  exact List.length_eq_zero.mp (by omega)
                have hqpre : q = q0 := by
                  rw [hsplitq, hrest2nil, List.append_nil, hpre_eq]
                rw [hqpre]
                exact le_of_eq htc
              · exact Or.inr ⟨node, hnrest, pre, rest2, hprene, hsplitq, hof⟩
        · next hnimp =>
          refine ⟨hWFrest, incumbent_of_fields s src0 rfl rfl hInc, ?_⟩
          intro q hqperm hqhead
          rcases hCov q hqperm hqhead with hb | ⟨node, hnode, pre, rest2, hprene, hsplitq, hof⟩
          · exact Or.inl hb
          · rcases List.mem_cons.mp (hto_cr node hnode) with rfl | hnrest
            · left
              have hpremem2 : ∀ v ∈ pre, v < s.n := by
                intro v hv
                refine List.mem_range.mp (hqperm.mem_iff.mp ?_)
                rw [hsplitq]
                exact List.mem_append.mpr (Or.inl hv)
              have hpre_eq : pre = q0 := by
                have h1 : pre.map (reverseGet s.reverseNodeMap) =
                    q0.map (reverseGet s.reverseNodeMap) := by
                  rw [← hof.1, ← hof0.1]
                have h2 := map_nodeGet_rg s hkeys hvals pre hpremem2
                have h3 := map_nodeGet_rg s hkeys hvals q0 hq0mem
                rw [← h2, h1, h3]
              have hrest2nil : rest2 = [] := by
                have hql : q.length = s.n := by simpa using hqperm.length_eq
                have hq2 : q.length = pre.length + rest2.length := by
                  rw [hsplitq]
                  simp
                have hpl : pre.length = s.n := by rw [hpre_eq, hq0len]
                exact List.length_eq_zero.mp (by omega)
              have hqpre : q = q0 := by
                rw [hsplitq, hrest2nil, List.append_nil, hpre_eq]
              calc st.bestCost
                  ≤ node.cost + matrixGet s.matrix (q0.getLastD 0) (q0.headD 0) :=
                    not_lt.mp hnimp
                _ = tourCost s.matrix q0 := htc
                _ = tourCost s.matrix q := by rw [hqpre]
            · exact Or.inr ⟨node, hnrest, pre, rest2, hprene, hsplitq, hof⟩
      · next hnlev =>
        refine ⟨?_, ?_, ?_⟩
        · intro node hnode
          exact foldl_expandChild_queueWF s c hkeys hvals src0 current q0 hq0ne hq0nd hq0mem
            hq0head hof0 (List.range s.n) (fun i hi => List.mem_range.mp hi) _ hWFrest
            node hnode
        · refine incumbent_of_fields s src0 ?_ ?_ hInc
          · exact foldl_expandChild_bestCost s c current q0 (List.range s.n) _
          · exact foldl_expandChild_bestPath s c current q0 (List.range s.n) _
        · intro q hqperm hqhead
          rcases hCov q hqperm hqhead with hb | ⟨node, hnode, pre, rest2, hprene, hsplitq, hof⟩
          · left
            have hbc := foldl_expandChild_bestCost s c current q0 (List.range s.n)
              { st with queue := rest, exploredCount := st.exploredCount + 1 }
            calc (expandChildren s c current q0
                  { st with queue := rest, exploredCount := st.exploredCount + 1 }).bestCost
                = st.bestCost := hbc
              _ ≤ tourCost s.matrix q := hb
          · rcases List.mem_cons.mp (hto_cr node hnode) with rfl | hnrest
            · have hpremem2 : ∀ v ∈ pre, v < s.n := by
                intro v hv
                refine List.mem_range.mp (hqperm.mem_iff.mp ?_)
                rw [hsplitq]
                exact List.mem_append.mpr (Or.inl hv)
              have hpre_eq : pre = q0 := by
                have h1 : pre.map (reverseGet s.reverseNodeMap) =
                    q0.map (reverseGet s.reverseNodeMap) := by
                  rw [← hof.1, ← hof0.1]
                have h2 := map_nodeGet_rg s hkeys hvals pre hpremem2
                have h3 := map_nodeGet_rg s hkeys hvals q0 hq0mem
                rw [← h2, h1, h3]
              have hrest2ne : rest2 ≠ [] := by
                intro hnil
                have hql : q.length = s.n := by simpa using hqperm.length_eq
                rw [hsplitq, hnil, List.append_nil] at hql
                exact hnlev (by rw [hof0.2.2.1, ← hpre_eq, hql])
              rw [← hpre_eq]
              exact expandChildren_establish s c hkeys hvals hsym hfin hnn node pre rest2
                q _ hqperm hsplitq hrest2ne hprene hof
            · right
              obtain ⟨tail, htail, -, -⟩ := expandChildren_queue s c current q0
                { st with queue := rest, exploredCount := st.exploredCount + 1 }
              refine ⟨node, ?_, pre, rest2, hprene, hsplitq, hof⟩
              rw [htail]
              exact List.mem_append.mpr (Or.inl hnrest)

theorem initial_searchInv (s : Solver F) (c : Nat → Int) (src0 : Nat) (hsrc0 : src0 < s.n) :
    SearchInv s src0 (initialState s c src0) := by
  refine ⟨?_, Or.inl ⟨rfl, rfl⟩, ?_⟩
  · intro node hnode
    have hq : (initialState s c src0).queue =
        [(createPartialSolution s 0 [src0] 0 1 none).1] := rfl
    rw [hq, List.mem_singleton] at hnode
    subst hnode
    refine ⟨[src0], by simp, by simp, ?_, rfl, rfl, rfl, rfl, rfl, rfl⟩
    intro v hv
    rw [List.mem_singleton.mp hv]
    exact hsrc0
  · intro q hqperm hqhead
    have hql : q.length = s.n := by simpa using hqperm.length_eq
    have hqne : q ≠ [] := by
      intro h
      rw [h] at hql
      simp at hql
      omega
    have hsplit : q = [src0] ++ q.tail := by
      cases q with
      | nil => exact absurd rfl hqne
      | cons a t =>
        have ha : a = src0 := hqhead
        rw [← ha]
        rfl
    exact Or.inr ⟨(createPartialSolution s 0 [src0] 0 1 none).1, List.mem_singleton.mpr rfl,
      [src0], q.tail, by simp, hsplit, rfl, rfl, rfl, rfl, rfl⟩

/-- **C1** (amended): for every square symmetric cost matrix with finite
non-negative off-diagonal costs, `2 ≤ n ≤ 10` cities, a duplicate-free id
mapping whose indices enumerate `0 … n-1`, and a source id present in the
mapping, `solve` returns a best tour whose cost equals the brute-force
minimum over all permutations fixing the source, and whose city list starts
and ends at the source.  (The original claim also allowed `n = 1`, where the
code returns no tour when the diagonal entry is infinite although the
degenerate permutation exists — see the counterexample.) -/
theorem C1_solve_optimal (s : Solver F) (c : Nat → Int) (src0 : Nat)
    (hkeys : (s.nodeMap.map Prod.fst).Nodup)
    (hvals : (s.nodeMap.map Prod.snd).Perm (List.range s.n))
    (hsrc : List.lookup s.sourceNodeId s.nodeMap = some src0)
    (h2 : 2 ≤ s.n) (h10 : s.n ≤ 10)
    (hsym : ∀ i ∈ List.range s.n, ∀ j ∈ List.range s.n,
      matrixGet s.matrix i j = matrixGet s.matrix j i)
    (hfin : ∀ i ∈ List.range s.n, ∀ j ∈ List.range s.n, i ≠ j → matrixGet s.matrix i j ≠ ⊤)
    (hnn : ∀ i ∈ List.range s.n, ∀ j ∈ List.range s.n, i ≠ j → 0 ≤ matrixGet s.matrix i j) :
    ∃ r : SolveResult F, solve s c = .ok r ∧
      ∃ best : PartialSolution F, r.bestSolution = some best ∧
        best.cost = bruteForceMinCost s.matrix s.n src0 ∧
        best.path.headD "" = s.sourceNodeId ∧
        best.path.getLastD "" = s.sourceNodeId := by
  have hsrc0n : src0 < s.n := src_lt_n s hvals hsrc
  obtain ⟨final, hok, hloop⟩ := solveState_ok_of_lookup s c src0 hsrc
  have hinv : SearchInv s src0 final :=
    solveLoop_preserve s c
      (fun st hP => solveStep_searchInv s c hkeys hvals hsym hfin hnn src0 st hP)
      _ _ _ hloop (initial_searchInv s c src0 hsrc0n)
  have hqempty : final.queue = [] := solveLoop_final_queue s c _ _ _ hloop
  obtain ⟨hWFf, hIncf, hCovf⟩ := hinv
  have hdom : ∀ q ∈ sourceTours s.n src0, final.bestCost ≤ tourCost s.matrix q := by
    intro q hq
    have hqp : q.Perm (List.range s.n) :=
      List.mem_permutations'.mp (List.mem_filter.mp hq).1
    have hqh : q.headD 0 = src0 := by
      have hb := (List.mem_filter.mp hq).2
      simpa using hb
    rcases hCovf q hqp hqh with hb | ⟨node, hnode, -⟩
    · exact hb
    · rw [hqempty] at hnode
      exact absurd hnode (List.not_mem_nil node)
  have hqexperm : (src0 :: (List.range s.n).erase src0).Perm (List.range s.n) :=
    (List.perm_cons_erase (List.mem_range.mpr hsrc0n)).symm
  have hqexmem : (src0 :: (List.range s.n).erase src0) ∈ sourceTours s.n src0 := by
    dsimp only [sourceTours]
    exact List.mem_filter.mpr ⟨List.mem_permutations'.mpr hqexperm, by simp⟩
  have hqex_fin : tourCost s.matrix (src0 :: (List.range s.n).erase src0) ≠ ⊤ :=
    tourCost_ne_top s.matrix s.n _ hqexperm h2 hfin
  rcases hIncf with ⟨hbc_top, -⟩ | ⟨qstar, hqsperm, hqshead, hbc, hbp⟩
  · exfalso
    have hle := hdom _ hqexmem
    rw [hbc_top] at hle
    exact hqex_fin (top_le_iff.mp hle)
  · have hmin1 : final.bestCost ≤ bruteForceMinCost s.matrix s.n src0 := by
      dsimp only [bruteForceMinCost]
      exact le_foldl_min (tourCost s.matrix) final.bestCost (sourceTours s.n src0) hdom
    have hqstours : qstar ∈ sourceTours s.n src0 := by
      dsimp only [sourceTours]
      exact List.mem_filter.mpr ⟨List.mem_permutations'.mpr hqsperm, by simpa using hqshead⟩
    have hmin2 : bruteForceMinCost s.matrix s.n src0 ≤ final.bestCost := by
      dsimp only [bruteForceMinCost]
      rw [hbc]
      exact foldl_min_map_le_elem (tourCost s.matrix) (sourceTours s.n src0) qstar hqstours
    have hbest : final.bestCost = bruteForceMinCost s.matrix s.n src0 :=
      le_antisymm hmin1 hmin2
    have hqsne : qstar ≠ [] := by
      have hqsl : qstar.length = s.n := by simpa using hqsperm.length_eq
      intro h
      rw [h] at hqsl
      simp at hqsl
      omega
    have hmapne : qstar.map (reverseGet s.reverseNodeMap) ≠ [] := by simpa using hqsne
    have hbplen : 0 < final.bestPath.length := by
      rw [hbp]
      simp
    have hfs : (finishSolve s final).bestSolution = some
        { id := "final-solution", path := final.bestPath,
          visited := final.bestPath.dropLast, cost := final.bestCost,
          lowerBound := final.bestCost, level := s.n, isComplete := true,
          isPruned := false, parentId := none } := by
      dsimp only [finishSolve]
      rw [if_pos hbplen]
    refine ⟨finishSolve s final, ?_, _, hfs, hbest, ?_, ?_⟩
    · unfold solve
      rw [hok]
      rfl
    · show final.bestPath.headD "" = s.sourceNodeId
      rw [hbp, headD_append_left hmapne, headD_map_ne _ qstar hqsne "" 0, hqshead]
      exact reverseGet_src s hkeys hvals hsrc
    · show final.bestPath.getLastD "" = s.sourceNodeId
      rw [hbp, List.getLastD_concat]
      exact reverseGet_src s hkeys hvals hsrc

/-- Counterexample to the original C1: with a single city whose diagonal
entry is infinite (a matrix that vacuously has finite non-negative
off-diagonal costs, n = 1 ≤ 10, source present), `solve` returns no best
tour at all, although the brute-force search space is the nonempty `[[0]]`
(with round-trip cost ∞). -/
theorem C1_counterexample :
    (resultOf (solve oneCityTopSolver zeroClock)).bestSolution = none ∧
    (solve oneCityTopSolver zeroClock).toOption ≠ none ∧
    sourceTours 1 0 = [[0]] ∧
    bruteForceMinCost [[(⊤ : Cost ℤ)]] 1 0 = ⊤ := by decide

/-- Witness for C1 on the spec's worked 4-city example: the returned best
tour costs exactly the brute-force optimum (80) and starts and ends at A. -/
theorem C1_witness :
    2 ≤ spec4Solver.n ∧
    ∃ r : SolveResult ℤ, solve spec4Solver zeroClock = .ok r ∧
      ∃ best : PartialSolution ℤ, r.bestSolution = some best ∧
        best.cost = bruteForceMinCost spec4Solver.matrix spec4Solver.n 0 ∧
        best.path.headD "" = spec4Solver.sourceNodeId ∧
        best.path.getLastD "" = spec4Solver.sourceNodeId :=
  ⟨by decide, C1_solve_optimal spec4Solver zeroClock 0 (by decide) (by decide) (by decide)
    (by decide) (by decide) (by decide) (by decide) (by decide)⟩

end TSPBB
